import Mathlib

/-!
# The persistent trie of `src/primer/trie.cpp`

A shallow embedding of `Trie::Get`, `Trie::Put`, `Trie::Remove` and of the helper
`Remove_Function`, followed by the properties of the three operations.

Conventions of the embedding.

* A key (`std::string_view`) is a `List Char`.  The source keeps the length of the key in an
  `int32_t` (`int32_t len = key.size()`, lines 13, 93 and 142), which is the length only for
  keys shorter than `2^31` symbols.  `Trie.Put32` and `Trie.Remove32` are the two methods with
  that `int32_t` made explicit, at every length of the key; `Trie.Put` and `Trie.Remove` are
  the same methods with `len` the length of the key, and agree with them on every key shorter
  than `2^31` symbols (`Put32_eq_Put`, `Remove32_eq_Remove`).
* `std::map<char, std::shared_ptr<const TrieNode>>` is an association list kept in
  increasing key order; `find`, `assign` (`operator[]` followed by an assignment) and `erase`
  are the three accesses the source makes.  Only the relative order of the entries depends on
  the order chosen for symbols, never the content of a map.
* A `shared_ptr` that may be null is an `Option`; a shared node is a value, so sharing between
  versions is invisible and every node is immutable.
* The payload of a `TrieNodeWithValue<T>` is a pair of the type `T` (a tag of `Ty`) and a
  value of that type; `dynamic_cast` to `TrieNodeWithValue<U>` succeeds when the tag is `U`.
* An access the C++ standard leaves undefined is a `Fault`: operations return `Except Fault`.
* What the operations write is stated on a second embedding, over a heap of node objects
  (`HPut`, `HRemove`, `HGet`), in which allocation and assignment are explicit; the lemmas
  `HGet_sim`, `HPut_sim` and `HRemove_sim` show that it computes the same tries.
-/

namespace bustub

/-- Accesses with undefined behaviour that the code can reach. -/
inductive Fault where
  /-- The call `key.back()` on an empty `string_view`. -/
  | back_of_empty_key
  /-- The access `children_.find(c)->second` when `find` returned `end()`. -/
  | deref_end
  /-- The subtraction `len - 1` on the least `int32_t`. -/
  | int32_overflow
  deriving DecidableEq, Repr

/-! ## The children map -/

/-- Lookup `m.find(c)`: `none` stands for `m.end()`. -/
def find {α : Type} : List (Char × α) → Char → Option α
  | [], _ => none
  | (k, x) :: m, c => if k = c then some x else find m c

/-- Assignment `m[c] = x`: replaces the entry of `c`, or adds one at its place in key order. -/
def assign {α : Type} : List (Char × α) → Char → α → List (Char × α)
  | [], c, x => [(c, x)]
  | (k, y) :: m, c, x =>
    if c < k then (c, x) :: (k, y) :: m
    else if c = k then (c, x) :: m
    else (k, y) :: assign m c x

/-- Removal `m.erase(c)`: the map without the entry of `c` (a valid map has at most one). -/
def erase {α : Type} : List (Char × α) → Char → List (Char × α)
  | [], _ => []
  | (k, x) :: m, c => if k = c then erase m c else (k, x) :: erase m c

/-! ## Nodes and tries -/

/-- Modelled from the spec: the node classes `TrieNode` and `TrieNodeWithValue<T>` are declared
in the header `primer/trie.h`, outside `src/primer/trie.cpp`.  A node has a children map and is
either plain (`value_ = none`) or value-bearing with a type-erased payload. -/
inductive TrieNode (Ty : Type) (El : Ty → Type) where
  | mk (children_ : List (Char × TrieNode Ty El)) (value_ : Option (Sigma El))

variable {Ty : Type} {El : Ty → Type}

/-- The children map of a node. -/
def TrieNode.children_ : TrieNode Ty El → List (Char × TrieNode Ty El)
  | .mk cs _ => cs

/-- The payload of a node, `none` for a plain node. -/
def TrieNode.value_ : TrieNode Ty El → Option (Sigma El)
  | .mk _ v => v

/-- Flag `is_value_node_`: set by the constructors of `TrieNodeWithValue` only. -/
def TrieNode.is_value_node_ (n : TrieNode Ty El) : Bool :=
  n.value_.isSome

/-- Modelled from the spec: `Clone` is defined in `primer/trie.h`.  It returns a new node of the
same variant with a copy of the children map and, for a value node, the same value. -/
def TrieNode.Clone (n : TrieNode Ty El) : TrieNode Ty El :=
  .mk n.children_ n.value_

/-- A trie is a handle on a root that may be null. -/
structure Trie (Ty : Type) (El : Ty → Type) where
  root_ : Option (TrieNode Ty El)

/-- The walk `for (char c : key)` of `Get` (lines 49-55), which `Remove` repeats with an index
(lines 143-150): `none` when a symbol has no child. -/
def walk (cur_node : TrieNode Ty El) : List Char → Option (TrieNode Ty El)
  | [] => some cur_node
  | c :: key =>
    match find cur_node.children_ c with
    | some child => walk child key
    | none => none

/-- Cast `dynamic_cast<const TrieNodeWithValue<U> *>`: the payload when its type is `U`. -/
def dynamic_cast [DecidableEq Ty] (U : Ty) (n : TrieNode Ty El) : Option (El U) :=
  match n.value_ with
  | some ⟨t, v⟩ => if h : t = U then some (h ▸ v) else none
  | none => none

/-- The method `Trie::Get<U>(key)`; `none` is the null result. -/
def Trie.Get [DecidableEq Ty] (t : Trie Ty El) (U : Ty) (key : List Char) : Option (El U) :=
  match t.root_ with
  | none => none
  | some root =>
    match walk root key with
    | none => none
    | some cur_node =>
      if cur_node.is_value_node_ then dynamic_cast U cur_node else none

/-- Lines 93-113 of `Trie::Put`, from `cur_node` on, given the symbols the loop reads followed by
`key.back()`: the loop over all symbols but the last, then the value node under the last.  The
source writes into the fresh node `cur_node` and moves down; here the rebuilt `cur_node` is
returned.  The loop of the source reads `key[i]` for `i < len - 1` with `len` an `int32_t`:
`Put_path32` passes exactly those symbols. -/
def Put_path (cur_node : TrieNode Ty El) (value : Sigma El) :
    List Char → Except Fault (TrieNode Ty El)
  | [] => .error .back_of_empty_key
  | [c] =>
    match find cur_node.children_ c with
    | some children_node =>
      .ok (.mk (assign cur_node.children_ c (.mk children_node.Clone.children_ (some value)))
        cur_node.value_)
    | none => .ok (.mk (assign cur_node.children_ c (.mk [] (some value))) cur_node.value_)
  | c :: c2 :: key =>
    let new_node : TrieNode Ty El :=
      match find cur_node.children_ c with
      | some child => child.Clone
      | none => .mk [] none
    match Put_path new_node value (c2 :: key) with
    | .ok new_node => .ok (.mk (assign cur_node.children_ c new_node) cur_node.value_)
    | .error e => .error e

/-- The method `Trie::Put<T>(key, value)`, the value given with its type `T`, with `len` the
length of the key, as it is for every key shorter than `2^31` symbols (`Trie.Put32` is the
method at every length).  In the branch of an empty trie and an empty key the source builds the
root value node and, unlike the branch of a non-empty trie and an empty key, does not return:
it goes on to line 92. -/
def Trie.Put (t : Trie Ty El) (key : List Char) (value : Sigma El) : Except Fault (Trie Ty El) :=
  match t.root_ with
  | none =>
    let cur_node : TrieNode Ty El :=
      if key.isEmpty then .mk [] (some value) else .mk [] none
    match Put_path cur_node value key with
    | .ok new_root => .ok ⟨some new_root⟩
    | .error e => .error e
  | some root =>
    if key.isEmpty then .ok ⟨some (.mk root.Clone.children_ (some value))⟩
    else
      match Put_path root.Clone value key with
      | .ok new_root => .ok ⟨some new_root⟩
      | .error e => .error e

/-- The function `Remove_Function(key, index, cur_node)`, given the symbols `key[index]`, ...,
`key[len - 1]` it still has to read (the source stops at `index >= len`, with `len` the
`int32_t` length of the key: `Trie.Remove32` passes exactly the symbols below `len`); the inner
`Option` is the node returned, `none` for `nullptr`. -/
def Remove_Function : List Char → TrieNode Ty El → Except Fault (Option (TrieNode Ty El))
  | [], cur_node =>
    if cur_node.children_.isEmpty then .ok none
    else .ok (some (.mk cur_node.children_ none))
  | c :: key, cur_node =>
    match find cur_node.children_ c with
    | none => .error .deref_end
    | some child =>
      match Remove_Function key child with
      | .error e => .error e
      | .ok children_node =>
        if children_node.isSome || cur_node.is_value_node_ || decide (cur_node.children_.length > 1)
        then
          let new_node := cur_node.Clone
          match children_node with
          | some n => .ok (some (.mk (assign new_node.children_ c n) new_node.value_))
          | none => .ok (some (.mk (erase new_node.children_ c) new_node.value_))
        else .ok none

/-- The method `Trie::Remove(key)` with `len` the length of the key, as it is for every key
shorter than `2^31` symbols (`Trie.Remove32` is the method at every length); `.ok t` where the
source returns `*this`. -/
def Trie.Remove (t : Trie Ty El) (key : List Char) : Except Fault (Trie Ty El) :=
  match t.root_ with
  | none => .ok t
  | some cur_root =>
    if key.isEmpty then
      if cur_root.is_value_node_ then
        if cur_root.children_.isEmpty then .ok ⟨none⟩
        else .ok ⟨some (.mk cur_root.children_ none)⟩
      else .ok t
    else
      match walk cur_root key with
      | none => .ok t
      | some cur_node =>
        if !cur_node.is_value_node_ then .ok t
        else
          match Remove_Function key cur_root with
          | .ok new_root => .ok ⟨new_root⟩
          | .error e => .error e

/-! ## The methods with the `int32_t` length of the source -/

/-- The conversion of a size to `int32_t`, as in `int32_t len = key.size()`: the value modulo
`2^32` that lies between `-2^31` and `2^31 - 1`. -/
@[irreducible]
def int32_t (n : Nat) : Int :=
  (((2147483648 + n) % 4294967296 : Nat) : Int) - 2147483648

/-- The symbols `key[0]`, ..., `key[len - 1]`, those a loop `for (int32_t i = 0; i < len; ++i)`
reads with `key[i]`; none when `len` is not positive. -/
def symbols_below (key : List Char) (len : Int) : List Char :=
  key.take len.toNat

/-- Lines 92-113 of `Trie::Put` with `int32_t len = key.size()`: the loop runs over the indices
`i < len - 1` (the subtraction overflows on the least `int32_t`), then comes `key.back()`. -/
def Put_path32 (cur_node : TrieNode Ty El) (value : Sigma El) (key : List Char) :
    Except Fault (TrieNode Ty El) :=
  let len := int32_t key.length
  if len = -2147483648 then .error .int32_overflow
  else
    match key.getLast? with
    | none => .error .back_of_empty_key
    | some c => Put_path cur_node value (symbols_below key (len - 1) ++ [c])

/-- The method `Trie::Put<T>(key, value)` at every length of the key. -/
def Trie.Put32 (t : Trie Ty El) (key : List Char) (value : Sigma El) :
    Except Fault (Trie Ty El) :=
  match t.root_ with
  | none =>
    let cur_node : TrieNode Ty El :=
      if key.isEmpty then .mk [] (some value) else .mk [] none
    match Put_path32 cur_node value key with
    | .ok new_root => .ok ⟨some new_root⟩
    | .error e => .error e
  | some root =>
    if key.isEmpty then .ok ⟨some (.mk root.Clone.children_ (some value))⟩
    else
      match Put_path32 root.Clone value key with
      | .ok new_root => .ok ⟨some new_root⟩
      | .error e => .error e

/-- The method `Trie::Remove(key)` at every length of the key: the walk of lines 143-150 runs
over the indices `i < len`, and `Remove_Function(key, 0, cur_root)` stops at `index >= len`,
with `int32_t len = key.size()` in both. -/
def Trie.Remove32 (t : Trie Ty El) (key : List Char) : Except Fault (Trie Ty El) :=
  match t.root_ with
  | none => .ok t
  | some cur_root =>
    if key.isEmpty then
      if cur_root.is_value_node_ then
        if cur_root.children_.isEmpty then .ok ⟨none⟩
        else .ok ⟨some (.mk cur_root.children_ none)⟩
      else .ok t
    else
      let len := int32_t key.length
      match walk cur_root (symbols_below key len) with
      | none => .ok t
      | some cur_node =>
        if !cur_node.is_value_node_ then .ok t
        else
          match Remove_Function (symbols_below key len) cur_root with
          | .ok new_root => .ok ⟨new_root⟩
          | .error e => .error e

/-! ## Value types used in the examples -/

/-- Three of the value types `trie.cpp` instantiates `Put` and `Get` for (lines 166-173). -/
inductive ValueType where
  | uint32_t
  | uint64_t
  | string
  deriving DecidableEq, Repr

/-- The values of each type. -/
def ValueType.Val : ValueType → Type
  | .uint32_t => Nat
  | .uint64_t => Nat
  | .string => String

/-- The empty trie `Trie()`. -/
def Trie.empty : Trie Ty El := ⟨none⟩

/-- The value `1` of type `uint32_t`. -/
def one : Sigma ValueType.Val := ⟨.uint32_t, (1 : Nat)⟩

/-- The value `2` of type `uint32_t`. -/
def two : Sigma ValueType.Val := ⟨.uint32_t, (2 : Nat)⟩

/-- The trie with `"a"` mapped to `1` and `"ab"` mapped to `2`: a plain root, a value node under
`a` and a value node under `b` below it. -/
def exampleTrie : Trie ValueType ValueType.Val :=
  ⟨some (.mk [('a', .mk [('b', .mk [] (some two))] (some one))] none)⟩

/-- The root of `exampleTrie`. -/
def exampleRoot : TrieNode ValueType ValueType.Val :=
  .mk [('a', .mk [('b', .mk [] (some two))] (some one))] none

/-- A root that is value-bearing and has one child: `""` mapped to `1` and `"a"` to `2`. -/
def valueRoot : TrieNode ValueType ValueType.Val :=
  .mk [('a', .mk [] (some two))] (some one)

/-- A key of `2^31 + 1` symbols, all `a`. -/
@[irreducible]
def longKey : List Char := List.replicate 2147483649 'a'

/-! ## Notions used to state the properties -/

/-- The node a key leads to from the root, if the trie has a root and the path exists. -/
def Trie.node (t : Trie Ty El) (key : List Char) : Option (TrieNode Ty El) :=
  match t.root_ with
  | none => none
  | some root => walk root key

/-- The payload, with its type, found by following a key from a node. -/
def lookup (n : TrieNode Ty El) (key : List Char) : Option (Sigma El) :=
  match walk n key with
  | some m => m.value_
  | none => none

/-- The payload, with its type, a trie holds under a key. -/
def Trie.valueAt (t : Trie Ty El) (key : List Char) : Option (Sigma El) :=
  match t.root_ with
  | none => none
  | some root => lookup root key

/-- A payload seen at type `U`: what `dynamic_cast` leaves of it. -/
def castTo [DecidableEq Ty] (U : Ty) : Option (Sigma El) → Option (El U)
  | some ⟨t, v⟩ => if h : t = U then some (h ▸ v) else none
  | none => none

/-- The keys of a children map are strictly increasing: the map is a valid `std::map`. -/
def KeysSorted {α : Type} (m : List (Char × α)) : Prop :=
  (m.map Prod.fst).Pairwise (fun a b => a < b)

/-- Every node that some key leads to from `n` satisfies `P`. -/
def AllNodes (P : TrieNode Ty El → Prop) (n : TrieNode Ty El) : Prop :=
  ∀ key m, walk n key = some m → P m

/-- A node is dead when it is neither value-bearing nor has a child. -/
def TrieNode.dead (n : TrieNode Ty El) : Bool :=
  !n.is_value_node_ && n.children_.isEmpty

/-- A node with a valid children map that is not dead. -/
def NodeSound (n : TrieNode Ty El) : Prop :=
  KeysSorted n.children_ ∧ n.dead = false

/-- No reachable node of the trie is both non-value-bearing and childless. -/
def Trie.NoDeadNode (t : Trie Ty El) : Prop :=
  ∀ key n, t.node key = some n → ¬ (n.is_value_node_ = false ∧ n.children_ = [])

/-- Every children map of the trie is valid and no reachable node is dead. -/
def Trie.Sound (t : Trie Ty El) : Prop :=
  ∀ root, t.root_ = some root → AllNodes NodeSound root

/-- The tries obtained from the empty trie by a finite sequence of `Put` and `Remove`. -/
inductive Reachable : Trie Ty El → Prop where
  | empty : Reachable Trie.empty
  | put {t t2 : Trie Ty El} (key : List Char) (value : Sigma El) :
      Reachable t → t.Put key value = .ok t2 → Reachable t2
  | remove {t t2 : Trie Ty El} (key : List Char) :
      Reachable t → t.Remove key = .ok t2 → Reachable t2

/-- Reference definition of the path of `Get`: `Reaches n key m` when following the symbols of
`key` one by one from `n` finds a child at every step and ends in `m`. -/
inductive Reaches : TrieNode Ty El → List Char → TrieNode Ty El → Prop where
  | here (n : TrieNode Ty El) : Reaches n [] n
  | step {n child m : TrieNode Ty El} {c : Char} {key : List Char} :
      find n.children_ c = some child → Reaches child key m → Reaches n (c :: key) m

/-- Reference definition of `Get<U>(key)` in the words of the specification: the trie is not
empty, the symbols of the key lead from the root to a node (the root itself for the empty key),
that node is value-bearing and its stored value has type `U` and is `x`. -/
def GetSpec (t : Trie Ty El) (U : Ty) (key : List Char) (x : El U) : Prop :=
  ∃ root n, t.root_ = some root ∧ Reaches root key n ∧ n.is_value_node_ = true ∧
    n.value_ = some ⟨U, x⟩

mutual
/-- The number of nodes of the subtree of a node, the node included. -/
def TrieNode.count : TrieNode Ty El → Nat
  | .mk cs _ => 1 + countList cs
/-- The number of nodes in the subtrees of a children map. -/
def countList : List (Char × TrieNode Ty El) → Nat
  | [] => 0
  | (_, n) :: m => n.count + countList m
end

/-- The number of nodes of a trie. -/
def Trie.count (t : Trie Ty El) : Nat :=
  match t.root_ with
  | none => 0
  | some root => root.count

/-- The single chain of a key: a plain node with one child for every symbol, ended by a value
node without children that holds the value. -/
def chain (value : Sigma El) : List Char → TrieNode Ty El
  | [] => .mk [] (some value)
  | c :: key => .mk [(c, chain value key)] none

/-- The tree `Put` builds below a node that may be missing, as a function of the rest of the
key: at the end of the key a value node with the children of the node, before it the node (a
plain node without children when missing) with the child under the next symbol rebuilt. -/
def PutTree (value : Sigma El) : Option (TrieNode Ty El) → List Char → TrieNode Ty El
  | o, [] =>
    .mk (match o with
      | some n => n.children_
      | none => []) (some value)
  | o, c :: key =>
    let cur : TrieNode Ty El :=
      match o with
      | some n => n
      | none => .mk [] none
    .mk (assign cur.children_ c (PutTree value (find cur.children_ c) key)) cur.value_

/-- Every children map of the trie is a valid map. -/
def Trie.ValidMaps (t : Trie Ty El) : Prop :=
  ∀ root, t.root_ = some root → AllNodes (fun m => KeysSorted m.children_) root

/-! ## The operations on a heap of node objects

The same code with the node objects made explicit: a heap is the list of the node objects
allocated so far, the address of an object is its index, `make_shared` and `Clone` append an
object, and `cur_node->children_[c] = ...` and `erase` overwrite the object at an address.
Every function returns the heap it leaves, also when it stops at a fault. -/

/-- A node object; its children map holds the addresses of the children. -/
structure HNode (Ty : Type) (El : Ty → Type) where
  children_ : List (Char × Nat)
  value_ : Option (Sigma El)

/-- The faults of the heap operations: a fault of the code, or an address without an object
(which a `shared_ptr` rules out). -/
inductive HFault where
  | ub (f : Fault)
  | dangling (addr : Nat)
  deriving DecidableEq, Repr

/-- The walk of `Get` and `Remove` over the heap: `ok none` when a symbol has no child. -/
def HWalk (h : List (HNode Ty El)) : Nat → List Char → Except HFault (Option Nat)
  | cur_node, [] => .ok (some cur_node)
  | cur_node, c :: key =>
    match h[cur_node]? with
    | none => .error (.dangling cur_node)
    | some cur =>
      match find cur.children_ c with
      | some child => HWalk h child key
      | none => .ok none

/-- The method `Trie::Get<U>(key)` over the heap, from the root address of the trie. -/
def HGet [DecidableEq Ty] (h : List (HNode Ty El)) (root_ : Option Nat) (U : Ty)
    (key : List Char) : Except HFault (Option (El U)) :=
  match root_ with
  | none => .ok none
  | some root =>
    match HWalk h root key with
    | .error e => .error e
    | .ok none => .ok none
    | .ok (some cur_node) =>
      match h[cur_node]? with
      | none => .error (.dangling cur_node)
      | some cur => .ok (if cur.value_.isSome then castTo U cur.value_ else none)

/-- Lines 93-113 of `Trie::Put` over the heap: each turn of the loop allocates `new_node` (a
clone of the child, or a plain node), writes it into `cur_node` and moves to it; the last
symbol allocates the value node and writes it into `cur_node`. -/
def HPut_path (value : Sigma El) :
    List Char → List (HNode Ty El) → Nat → List (HNode Ty El) × Except HFault Unit
  | [], h, _ => (h, .error (.ub .back_of_empty_key))
  | [c], h, cur_node =>
    match h[cur_node]? with
    | none => (h, .error (.dangling cur_node))
    | some cur =>
      match find cur.children_ c with
      | some children_node =>
        match h[children_node]? with
        | none => (h, .error (.dangling children_node))
        | some child =>
          let new_node := h.length
          let h1 := h ++ [⟨child.children_, some value⟩]
          (h1.set cur_node ⟨assign cur.children_ c new_node, cur.value_⟩, .ok ())
      | none =>
        let new_node := h.length
        let h1 := h ++ [⟨[], some value⟩]
        (h1.set cur_node ⟨assign cur.children_ c new_node, cur.value_⟩, .ok ())
  | c :: c2 :: key, h, cur_node =>
    match h[cur_node]? with
    | none => (h, .error (.dangling cur_node))
    | some cur =>
      match find cur.children_ c with
      | some child_node =>
        match h[child_node]? with
        | none => (h, .error (.dangling child_node))
        | some child =>
          let new_node := h.length
          let h1 := h ++ [child]
          let h2 := h1.set cur_node ⟨assign cur.children_ c new_node, cur.value_⟩
          HPut_path value (c2 :: key) h2 new_node
      | none =>
        let new_node := h.length
        let h1 := h ++ [⟨[], none⟩]
        let h2 := h1.set cur_node ⟨assign cur.children_ c new_node, cur.value_⟩
        HPut_path value (c2 :: key) h2 new_node

/-- The method `Trie::Put<T>(key, value)` over the heap: the heap it leaves and the root address
of the new trie. -/
def HPut (h : List (HNode Ty El)) (root_ : Option Nat) (key : List Char) (value : Sigma El) :
    List (HNode Ty El) × Except HFault (Option Nat) :=
  match root_ with
  | none =>
    let cur_node := h.length
    let h1 := if key.isEmpty then h ++ [⟨[], some value⟩] else h ++ [⟨[], none⟩]
    match HPut_path value key h1 cur_node with
    | (h2, .ok _) => (h2, .ok (some cur_node))
    | (h2, .error e) => (h2, .error e)
  | some root_node =>
    match h[root_node]? with
    | none => (h, .error (.dangling root_node))
    | some root =>
      if key.isEmpty then (h ++ [⟨root.children_, some value⟩], .ok (some h.length))
      else
        let cur_node := h.length
        match HPut_path value key (h ++ [root]) cur_node with
        | (h2, .ok _) => (h2, .ok (some cur_node))
        | (h2, .error e) => (h2, .error e)

/-- The function `Remove_Function` over the heap: the heap it leaves and the address it returns,
`none` for `nullptr`.  `Clone` allocates `new_node`, which the assignment or `erase` then
overwrites. -/
def HRemove_Function :
    List Char → List (HNode Ty El) → Nat → List (HNode Ty El) × Except HFault (Option Nat)
  | [], h, cur_node =>
    match h[cur_node]? with
    | none => (h, .error (.dangling cur_node))
    | some cur =>
      if cur.children_.isEmpty then (h, .ok none)
      else (h ++ [⟨cur.children_, none⟩], .ok (some h.length))
  | c :: key, h, cur_node =>
    match h[cur_node]? with
    | none => (h, .error (.dangling cur_node))
    | some cur =>
      match find cur.children_ c with
      | none => (h, .error (.ub .deref_end))
      | some child =>
        match HRemove_Function key h child with
        | (h1, .error e) => (h1, .error e)
        | (h1, .ok children_node) =>
          match h1[cur_node]? with
          | none => (h1, .error (.dangling cur_node))
          | some cur1 =>
            if children_node.isSome || cur1.value_.isSome ||
                decide (cur1.children_.length > 1) then
              let new_node := h1.length
              let h2 := h1 ++ [cur1]
              match children_node with
              | some n =>
                (h2.set new_node ⟨assign cur1.children_ c n, cur1.value_⟩, .ok (some new_node))
              | none =>
                (h2.set new_node ⟨erase cur1.children_ c, cur1.value_⟩, .ok (some new_node))
            else (h1, .ok none)

/-- The method `Trie::Remove(key)` over the heap: the heap it leaves and the root address of the
trie it returns. -/
def HRemove (h : List (HNode Ty El)) (root_ : Option Nat) (key : List Char) :
    List (HNode Ty El) × Except HFault (Option Nat) :=
  match root_ with
  | none => (h, .ok root_)
  | some cur_root =>
    if key.isEmpty then
      match h[cur_root]? with
      | none => (h, .error (.dangling cur_root))
      | some root =>
        if root.value_.isSome then
          if root.children_.isEmpty then (h, .ok none)
          else (h ++ [⟨root.children_, none⟩], .ok (some h.length))
        else (h, .ok root_)
    else
      match HWalk h cur_root key with
      | .error e => (h, .error e)
      | .ok none => (h, .ok root_)
      | .ok (some cur_node) =>
        match h[cur_node]? with
        | none => (h, .error (.dangling cur_node))
        | some cur =>
          if !cur.value_.isSome then (h, .ok root_)
          else HRemove_Function key h cur_root

/-- The heap `h2` holds every object of `h` unchanged at its address. -/
def Extends (h h2 : List (HNode Ty El)) : Prop :=
  h.length ≤ h2.length ∧ ∀ a, a < h.length → h2[a]? = h[a]?

/-- Every address stored in an object of the heap is the address of an object. -/
def Closed (h : List (HNode Ty El)) : Prop :=
  ∀ n ∈ h, ∀ e ∈ n.children_, e.2 < h.length

mutual
/-- The object at address `a`, with everything below it at addresses under `b`, is the tree. -/
def Rep (b : Nat) (h : List (HNode Ty El)) : Nat → TrieNode Ty El → Prop
  | a, .mk cs v =>
    a < b ∧
      match h[a]? with
      | some n => n.value_ = v ∧ RepMap b h n.children_ cs
      | none => False
/-- The children map of addresses holds, symbol by symbol, the trees of the children map. -/
def RepMap (b : Nat) (h : List (HNode Ty El)) :
    List (Char × Nat) → List (Char × TrieNode Ty El) → Prop
  | [], [] => True
  | e :: m, (c2, t) :: ts => e.1 = c2 ∧ Rep b h e.2 t ∧ RepMap b h m ts
  | _ :: _, [] => False
  | [], _ :: _ => False
end

/-- The root address, if any, holds the trie. -/
def RepTrie (b : Nat) (h : List (HNode Ty El)) (root_ : Option Nat) (t : Trie Ty El) : Prop :=
  match root_, t.root_ with
  | none, none => True
  | some a, some r => Rep b h a r
  | _, _ => False

/-- The heap after `Put("a", 1)`, `Put("ab", 2)` on an empty heap: two objects of the first
trie, rooted at address 0, and three of the second, rooted at address 2. -/
def exampleHeap : List (HNode ValueType ValueType.Val) :=
  [⟨[('a', 1)], none⟩, ⟨[], some one⟩, ⟨[('a', 3)], none⟩, ⟨[('b', 4)], some one⟩,
    ⟨[], some two⟩]

/-! ## The children map: lemmas -/

theorem find_assign_same {α : Type} (m : List (Char × α)) (c : Char) (x : α) :
    find (assign m c x) c = some x := by
  induction m with
  | nil => simp [assign, find]
  | cons e m ih =>
    obtain ⟨k, y⟩ := e
    unfold assign
    by_cases h1 : c < k
    · simp [h1, find]
    · by_cases h2 : c = k
      · simp [h1, h2, find]
      · have h3 : ¬ k = c := fun h => h2 h.symm
        simp [h1, h2, find, h3, ih]

theorem find_assign_ne {α : Type} (m : List (Char × α)) (c c2 : Char) (x : α) (h : c2 ≠ c) :
    find (assign m c x) c2 = find m c2 := by
  have hc : ¬ c = c2 := fun e => h e.symm
  induction m with
  | nil => simp [assign, find, hc]
  | cons e m ih =>
    obtain ⟨k, y⟩ := e
    unfold assign
    by_cases h1 : c < k
    · simp [h1, find, hc]
    · by_cases h2 : c = k
      · subst h2
        simp [h1, find, hc]
      · simp [h1, h2, find, ih]

theorem find_erase_same {α : Type} (m : List (Char × α)) (c : Char) :
    find (erase m c) c = none := by
  induction m with
  | nil => simp [erase, find]
  | cons e m ih =>
    obtain ⟨k, y⟩ := e
    by_cases h : k = c
    · simp [erase, h, ih]
    · simp [erase, h, find, ih]

theorem find_erase_ne {α : Type} (m : List (Char × α)) (c c2 : Char) (h : c2 ≠ c) :
    find (erase m c) c2 = find m c2 := by
  induction m with
  | nil => simp [erase, find]
  | cons e m ih =>
    obtain ⟨k, y⟩ := e
    by_cases h1 : k = c
    · have h2 : ¬ c = c2 := fun e => h e.symm
      simp [erase, h1, find, h2, ih]
    · simp [erase, h1, find, ih]

theorem keys_lt_of_find {α : Type} {m : List (Char × α)} {b c : Char} {x : α}
    (hb : ∀ a ∈ m.map Prod.fst, b < a) (hf : find m c = some x) : b < c := by
  induction m with
  | nil => cases hf
  | cons e m ih =>
    obtain ⟨k, y⟩ := e
    simp only [find] at hf
    by_cases hk : k = c
    · subst hk
      exact hb k (by simp)
    · simp only [hk, if_false] at hf
      exact ih (fun a ha => hb a (by simp only [List.map_cons, List.mem_cons]; exact Or.inr ha)) hf

theorem assign_keys {α : Type} (m : List (Char × α)) (c : Char) (x : α) :
    ∀ a ∈ (assign m c x).map Prod.fst, a = c ∨ a ∈ m.map Prod.fst := by
  induction m with
  | nil => intro a ha; simp [assign] at ha; exact Or.inl ha
  | cons e m ih =>
    obtain ⟨k, y⟩ := e
    intro a ha
    unfold assign at ha
    by_cases h1 : c < k
    · simp only [h1, if_true, List.map_cons, List.mem_cons] at ha
      simpa using ha
    · by_cases h2 : c = k
      · subst h2
        simp only [h1, if_false, if_true, List.map_cons, List.mem_cons] at ha
        simp only [List.map_cons, List.mem_cons]
        tauto
      · simp only [h1, h2, if_false, List.map_cons, List.mem_cons] at ha
        simp only [List.map_cons, List.mem_cons]
        rcases ha with ha | ha
        · exact Or.inr (Or.inl ha)
        · rcases ih a ha with h | h
          · exact Or.inl h
          · exact Or.inr (Or.inr h)

theorem KeysSorted_assign {α : Type} {m : List (Char × α)} (h : KeysSorted m) (c : Char)
    (x : α) : KeysSorted (assign m c x) := by
  induction m with
  | nil => simp [assign, KeysSorted]
  | cons e m ih =>
    obtain ⟨k, y⟩ := e
    unfold KeysSorted at h ih ⊢
    simp only [List.map_cons, List.pairwise_cons] at h
    unfold assign
    by_cases h1 : c < k
    · simp only [h1, if_true, List.map_cons, List.pairwise_cons, List.mem_cons]
      refine ⟨?_, h⟩
      intro a ha
      rcases ha with ha | ha
      · exact ha ▸ h1
      · exact lt_trans h1 (h.1 a ha)
    · by_cases h2 : c = k
      · subst h2
        simp only [h1, if_false, if_true, List.map_cons, List.pairwise_cons]
        exact h
      · simp only [h1, h2, if_false, List.map_cons, List.pairwise_cons]
        refine ⟨?_, ih h.2⟩
        intro a ha
        rcases assign_keys m c x a ha with h3 | h3
        · subst h3
          rcases lt_trichotomy a k with h4 | h4 | h4
          · exact absurd h4 h1
          · exact absurd h4 h2
          · exact h4
        · exact h.1 a h3

theorem erase_keys {α : Type} (m : List (Char × α)) (c : Char) :
    ∀ a ∈ (erase m c).map Prod.fst, a ∈ m.map Prod.fst := by
  induction m with
  | nil => intro a ha; simp [erase] at ha
  | cons e m ih =>
    obtain ⟨k, y⟩ := e
    intro a ha
    unfold erase at ha
    simp only [List.map_cons, List.mem_cons]
    by_cases h1 : k = c
    · simp only [h1, if_true] at ha
      exact Or.inr (ih a ha)
    · simp only [h1, if_false, List.map_cons, List.mem_cons] at ha
      rcases ha with ha | ha
      · exact Or.inl ha
      · exact Or.inr (ih a ha)

theorem KeysSorted_erase {α : Type} {m : List (Char × α)} (h : KeysSorted m) (c : Char) :
    KeysSorted (erase m c) := by
  induction m with
  | nil => simp [erase, KeysSorted]
  | cons e m ih =>
    obtain ⟨k, y⟩ := e
    unfold KeysSorted at h ih ⊢
    simp only [List.map_cons, List.pairwise_cons] at h
    unfold erase
    by_cases h1 : k = c
    · simp only [h1, if_true]
      exact ih h.2
    · simp only [h1, if_false, List.map_cons, List.pairwise_cons]
      exact ⟨fun a ha => h.1 a (erase_keys m c a ha), ih h.2⟩

theorem erase_ne_nil {α : Type} {m : List (Char × α)} (h : KeysSorted m) (hl : m.length > 1)
    (c : Char) : erase m c ≠ [] := by
  cases m with
  | nil => simp at hl
  | cons e m2 =>
    cases m2 with
    | nil => simp at hl
    | cons e2 m3 =>
      obtain ⟨k, y⟩ := e
      obtain ⟨k2, y2⟩ := e2
      unfold KeysSorted at h
      simp only [List.map_cons, List.pairwise_cons, List.mem_cons] at h
      have hlt : k < k2 := h.1 k2 (Or.inl rfl)
      by_cases h1 : k = c
      · have h2 : ¬ k2 = c := fun e => by rw [h1, e] at hlt; exact lt_irrefl _ hlt
        simp [erase, h1, h2]
      · simp [erase, h1]

theorem assign_ne_nil {α : Type} (m : List (Char × α)) (c : Char) (x : α) :
    assign m c x ≠ [] := by
  cases m with
  | nil => simp [assign]
  | cons e m =>
    obtain ⟨k, y⟩ := e
    unfold assign
    split
    · simp
    · split <;> simp

theorem assign_self {α : Type} {m : List (Char × α)} (h : KeysSorted m) {c : Char} {x : α}
    (hf : find m c = some x) : assign m c x = m := by
  induction m with
  | nil => cases hf
  | cons e m ih =>
    obtain ⟨k, y⟩ := e
    unfold KeysSorted at h ih
    simp only [List.map_cons, List.pairwise_cons] at h
    simp only [find] at hf
    unfold assign
    by_cases hk : k = c
    · subst hk
      simp only [if_true, Option.some.injEq] at hf
      simp [hf]
    · simp only [hk, if_false] at hf
      have hlt : k < c := keys_lt_of_find h.1 hf
      have h1 : ¬ c < k := lt_asymm hlt
      have h2 : ¬ c = k := fun e => hk e.symm
      simp only [h1, h2, if_false, ih h.2 hf]

theorem assign_assign {α : Type} (m : List (Char × α)) (c : Char) (x y : α) :
    assign (assign m c x) c y = assign m c y := by
  induction m with
  | nil => simp [assign]
  | cons e m ih =>
    obtain ⟨k, z⟩ := e
    by_cases h1 : c < k
    · simp [assign, h1]
    · by_cases h2 : c = k
      · subst h2
        simp [assign]
      · simp [assign, h1, h2, ih]

theorem erase_of_find_none {α : Type} {m : List (Char × α)} {c : Char}
    (hf : find m c = none) : erase m c = m := by
  induction m with
  | nil => rfl
  | cons e m ih =>
    obtain ⟨k, y⟩ := e
    simp only [find] at hf
    by_cases hk : k = c
    · simp [hk] at hf
    · simp only [hk, if_false] at hf
      simp [erase, hk, ih hf]

theorem erase_assign {α : Type} {m : List (Char × α)} {c : Char} (x : α)
    (hf : find m c = none) : erase (assign m c x) c = m := by
  induction m with
  | nil => simp [assign, erase]
  | cons e m ih =>
    obtain ⟨k, y⟩ := e
    have hf2 := hf
    simp only [find] at hf
    by_cases hk : k = c
    · simp [hk] at hf
    · simp only [hk, if_false] at hf
      have h2 : ¬ c = k := fun e => hk e.symm
      by_cases h1 : c < k
      · simp only [assign, h1, if_true, erase, hk, if_false]
        rw [erase_of_find_none hf]
      · simp only [assign, h1, h2, if_false, erase, hk, ih hf]

theorem length_assign {α : Type} {m : List (Char × α)} {c : Char} (x : α)
    (hf : find m c = none) : (assign m c x).length = m.length + 1 := by
  induction m with
  | nil => simp [assign]
  | cons e m ih =>
    obtain ⟨k, y⟩ := e
    simp only [find] at hf
    by_cases hk : k = c
    · simp [hk] at hf
    · simp only [hk, if_false] at hf
      have h2 : ¬ c = k := fun e => hk e.symm
      by_cases h1 : c < k
      · simp [assign, h1]
      · simp [assign, h1, h2, ih hf]

/-! ## Nodes, walks and lookups: lemmas -/

theorem children_mk (cs : List (Char × TrieNode Ty El)) (v : Option (Sigma El)) :
    (TrieNode.mk cs v).children_ = cs := rfl

theorem value_mk (cs : List (Char × TrieNode Ty El)) (v : Option (Sigma El)) :
    (TrieNode.mk cs v).value_ = v := rfl

theorem Clone_eq (n : TrieNode Ty El) : n.Clone = n := by
  cases n; rfl

theorem lookup_nil (n : TrieNode Ty El) : lookup n [] = n.value_ := rfl

theorem lookup_cons (n : TrieNode Ty El) (c : Char) (key : List Char) :
    lookup n (c :: key) =
      match find n.children_ c with
      | some child => lookup child key
      | none => none := by
  unfold lookup
  simp only [walk]
  cases find n.children_ c <;> rfl

theorem lookup_leaf (v : Option (Sigma El)) (c : Char) (key : List Char) :
    lookup (TrieNode.mk [] v : TrieNode Ty El) (c :: key) = none := by
  rw [lookup_cons]; rfl

theorem Get_eq_castTo [DecidableEq Ty] (t : Trie Ty El) (U : Ty) (key : List Char) :
    t.Get U key = castTo U (t.valueAt key) := by
  unfold Trie.Get Trie.valueAt lookup
  cases t.root_ with
  | none => rfl
  | some root =>
    simp only
    cases walk root key with
    | none => rfl
    | some m =>
      simp only [TrieNode.is_value_node_, dynamic_cast]
      cases hv : m.value_ with
      | none => rfl
      | some p => simp [castTo]

/-! ## `Put`: lemmas -/

theorem Put_path_single (cur : TrieNode Ty El) (v : Sigma El) (c : Char) :
    ∃ cs, Put_path cur v [c] = .ok (.mk (assign cur.children_ c (.mk cs (some v))) cur.value_) ∧
      ∀ c2 key, lookup (TrieNode.mk cs (some v) : TrieNode Ty El) (c2 :: key)
        = lookup cur (c :: c2 :: key) := by
  unfold Put_path
  cases h : find cur.children_ c with
  | none =>
    refine ⟨[], rfl, ?_⟩
    intro c2 key
    rw [lookup_leaf, lookup_cons, h]
  | some child =>
    refine ⟨child.children_, by simp [Clone_eq], ?_⟩
    intro c2 key
    rw [lookup_cons cur, h, lookup_cons]
    simp only [lookup_cons child]
    rfl

theorem Put_path_cons (cur : TrieNode Ty El) (v : Sigma El) (c c2 : Char) (key : List Char) :
    ∃ nn : TrieNode Ty El, (∀ k, lookup nn k = lookup cur (c :: k)) ∧
      ((find cur.children_ c = none ∧ nn = TrieNode.mk [] none) ∨
        find cur.children_ c = some nn) ∧
      Put_path cur v (c :: c2 :: key) =
        match Put_path nn v (c2 :: key) with
        | .ok n => .ok (.mk (assign cur.children_ c n) cur.value_)
        | .error e => .error e := by
  cases h : find cur.children_ c with
  | none =>
    refine ⟨.mk [] none, ?_, Or.inl ⟨rfl, rfl⟩, ?_⟩
    · intro k
      rw [lookup_cons cur, h]
      cases k with
      | nil => rfl
      | cons a k => rw [lookup_leaf]
    · rw [Put_path]; simp only [h]
  | some child =>
    refine ⟨child, ?_, Or.inr rfl, ?_⟩
    · intro k
      rw [lookup_cons cur, h]
    · rw [Put_path]; simp only [h, Clone_eq]

theorem lookup_mk_assign (cs : List (Char × TrieNode Ty El)) (val : Option (Sigma El))
    (c : Char) (n : TrieNode Ty El) (k : List Char) :
    lookup (TrieNode.mk (assign cs c n) val) k =
      match k with
      | [] => val
      | c2 :: key => if c2 = c then lookup n key else lookup (TrieNode.mk cs val) (c2 :: key) := by
  cases k with
  | nil => rfl
  | cons c2 key =>
    simp only [lookup_cons, children_mk]
    by_cases h : c2 = c
    · subst h
      simp [find_assign_same]
    · simp [find_assign_ne _ _ _ _ h, h]

theorem mk_eta (n : TrieNode Ty El) : TrieNode.mk n.children_ n.value_ = n := by
  cases n; rfl

/-- For a non-empty key the path part of `Put` returns a node, which holds the value under the
key and, under every other key, what `cur_node` held. -/
theorem Put_path_spec (v : Sigma El) (key : List Char) :
    ∀ cur : TrieNode Ty El, key ≠ [] →
      ∃ n, Put_path cur v key = .ok n ∧ n.value_ = cur.value_ ∧
        ∀ k, lookup n k = if k = key then some v else lookup cur k := by
  induction key with
  | nil => intro cur h; exact absurd rfl h
  | cons c rest ih =>
    intro cur _
    cases rest with
    | nil =>
      obtain ⟨cs, h1, h2⟩ := Put_path_single cur v c
      refine ⟨_, h1, rfl, ?_⟩
      intro k
      rw [lookup_mk_assign]
      cases k with
      | nil => simp [lookup_nil]
      | cons c2 k2 =>
        simp only [mk_eta]
        by_cases hc : c2 = c
        · subst hc
          cases k2 with
          | nil => simp [lookup_nil, value_mk]
          | cons c3 k3 => simp [h2]
        · simp [hc]
    | cons c2 rest2 =>
      obtain ⟨nn, hn1, -, hn2⟩ := Put_path_cons cur v c c2 rest2
      obtain ⟨n, h1, -, h3⟩ := ih nn (by simp)
      rw [h1] at hn2
      refine ⟨_, hn2, rfl, ?_⟩
      intro k
      rw [lookup_mk_assign]
      cases k with
      | nil => simp [lookup_nil]
      | cons c3 k3 =>
        simp only [mk_eta]
        by_cases hc : c3 = c
        · subst hc
          simp only [if_true, h3, hn1, List.cons.injEq, true_and]
        · simp [hc]

theorem Put_empty_trie_empty_key (v : Sigma El) :
    (Trie.empty : Trie Ty El).Put [] v = .error .back_of_empty_key := rfl

/-- Outside the empty key on the empty trie, `Put` returns a trie; it holds the value under the
key and, under every other key, what the receiver held. -/
theorem Put_valueAt (t : Trie Ty El) (key : List Char) (v : Sigma El)
    (h : t.root_ ≠ none ∨ key ≠ []) :
    ∃ t2, t.Put key v = .ok t2 ∧
      ∀ k, t2.valueAt k = if k = key then some v else t.valueAt k := by
  unfold Trie.Put
  cases hr : t.root_ with
  | none =>
    have hk : key ≠ [] := by
      rcases h with h | h
      · exact absurd hr h
      · exact h
    have hk2 : key.isEmpty = false := by
      cases key with
      | nil => exact absurd rfl hk
      | cons a l => rfl
    obtain ⟨n, h1, -, h3⟩ := Put_path_spec v key (TrieNode.mk [] none : TrieNode Ty El) hk
    simp only [hk2, Bool.false_eq_true, if_false, h1]
    refine ⟨_, rfl, ?_⟩
    intro k
    simp only [Trie.valueAt, hr, h3]
    by_cases hkk : k = key
    · simp [hkk]
    · simp only [hkk, if_false]
      cases k with
      | nil => rfl
      | cons a l => rw [lookup_leaf]
  | some root =>
    cases key with
    | nil =>
      simp only [List.isEmpty_nil, if_true]
      refine ⟨_, rfl, ?_⟩
      intro k
      simp only [Trie.valueAt, hr, Clone_eq]
      cases k with
      | nil => simp [lookup_nil, value_mk]
      | cons a l => simp [lookup_cons, children_mk]
    | cons c rest =>
      obtain ⟨n, h1, -, h3⟩ := Put_path_spec v (c :: rest) root (by simp)
      simp only [List.isEmpty_cons, Bool.false_eq_true, if_false, Clone_eq, h1]
      refine ⟨_, rfl, ?_⟩
      intro k
      simp only [Trie.valueAt, hr, h3]

/-! ## `Remove`: lemmas -/

theorem walk_cons_some {cur m : TrieNode Ty El} {c : Char} {key : List Char}
    (h : walk cur (c :: key) = some m) :
    ∃ child, find cur.children_ c = some child ∧ walk child key = some m := by
  simp only [walk] at h
  cases hf : find cur.children_ c with
  | none => rw [hf] at h; cases h
  | some child => rw [hf] at h; exact ⟨child, rfl, h⟩

theorem find_ne_of_length_le_one {α : Type} {m : List (Char × α)} {c c2 : Char} {x : α}
    (hl : ¬ m.length > 1) (hf : find m c = some x) (hc : c2 ≠ c) : find m c2 = none := by
  cases m with
  | nil => rfl
  | cons e m2 =>
    cases m2 with
    | nil =>
      obtain ⟨k, y⟩ := e
      simp only [find] at hf ⊢
      by_cases hk : k = c
      · have : ¬ k = c2 := fun e => hc (e.symm.trans hk)
        simp [this]
      · simp [hk] at hf
    | cons e2 m3 => simp at hl

theorem lookup_children_nil {n : TrieNode Ty El} (h : n.children_ = []) (c : Char)
    (key : List Char) : lookup n (c :: key) = none := by
  rw [lookup_cons, h]; rfl

theorem lookup_mk_erase (cs : List (Char × TrieNode Ty El)) (val : Option (Sigma El))
    (c : Char) (k : List Char) :
    lookup (TrieNode.mk (erase cs c) val) k =
      match k with
      | [] => val
      | c2 :: key => if c2 = c then none else lookup (TrieNode.mk cs val) (c2 :: key) := by
  cases k with
  | nil => rfl
  | cons c2 key =>
    simp only [lookup_cons, children_mk]
    by_cases h : c2 = c
    · subst h
      simp [find_erase_same]
    · simp [find_erase_ne _ _ _ h, h]

/-- Along a path that exists, `Remove_Function` returns without a fault; the node it returns
(none when it returns `nullptr`) holds nothing under the key and, under every other key, what
`cur_node` held. -/
theorem Remove_Function_spec (key : List Char) :
    ∀ (cur m : TrieNode Ty El), walk cur key = some m →
      ∃ r, Remove_Function key cur = .ok r ∧
        ∀ k, (Trie.mk r).valueAt k = if k = key then none else lookup cur k := by
  induction key with
  | nil =>
    intro cur m _
    unfold Remove_Function
    cases hc : cur.children_ with
    | nil =>
      refine ⟨none, by simp, ?_⟩
      intro k
      cases k with
      | nil => rfl
      | cons a l => simp [Trie.valueAt, lookup_children_nil hc]
    | cons e cs =>
      refine ⟨some (.mk (e :: cs) none), by simp, ?_⟩
      intro k
      cases k with
      | nil => rfl
      | cons a l => simp [Trie.valueAt, lookup_cons, children_mk, hc]
  | cons c rest ih =>
    intro cur m hw
    obtain ⟨child, hf, hw2⟩ := walk_cons_some hw
    obtain ⟨r2, hr2, hs⟩ := ih child m hw2
    unfold Remove_Function
    simp only [hf, hr2, Clone_eq]
    cases r2 with
    | some n =>
      refine ⟨_, by simp; rfl, ?_⟩
      intro k
      simp only [Trie.valueAt, lookup_mk_assign]
      cases k with
      | nil => simp [lookup_nil]
      | cons c2 k2 =>
        simp only [mk_eta]
        by_cases hc : c2 = c
        · subst hc
          have := hs k2
          simp only [Trie.valueAt] at this
          simp only [if_true, this, List.cons.injEq, true_and, lookup_cons cur, hf]
        · simp [hc]
    | none =>
      by_cases hcond : cur.is_value_node_ = true ∨ cur.children_.length > 1
      · refine ⟨some (.mk (erase cur.children_ c) cur.value_), ?_, ?_⟩
        · rcases hcond with h | h <;> simp [h]
        · intro k
          simp only [Trie.valueAt, lookup_mk_erase]
          cases k with
          | nil => simp [lookup_nil]
          | cons c2 k2 =>
            simp only [mk_eta]
            by_cases hc : c2 = c
            · subst hc
              have := hs k2
              simp only [Trie.valueAt] at this
              simp only [if_true, List.cons.injEq, true_and, lookup_cons cur, hf]
              rw [← this]
            · simp [hc]
      · have h1 : cur.is_value_node_ = false := by
          cases hv : cur.is_value_node_ with
          | false => rfl
          | true => exact absurd (Or.inl hv) hcond
        have h2 : ¬ cur.children_.length > 1 := fun h => hcond (Or.inr h)
        refine ⟨none, by simp [h1, h2], ?_⟩
        intro k
        simp only [Trie.valueAt]
        cases k with
        | nil =>
          simp only [lookup_nil, List.nil_eq, reduceCtorEq, if_false]
          simp only [TrieNode.is_value_node_] at h1
          cases hv : cur.value_ with
          | none => rfl
          | some p => simp [hv] at h1
        | cons c2 k2 =>
          by_cases hc : c2 = c
          · subst hc
            have := hs k2
            simp only [Trie.valueAt] at this
            simp only [List.cons.injEq, true_and, lookup_cons cur, hf]
            rw [← this]
          · rw [lookup_cons, find_ne_of_length_le_one h2 hf hc]
            simp [hc]

theorem value_none_of_not_value {n : TrieNode Ty El} (h : n.is_value_node_ = false) :
    n.value_ = none := by
  simp only [TrieNode.is_value_node_] at h
  cases hv : n.value_ with
  | none => rfl
  | some p => simp [hv] at h

/-- The method `Remove` always returns a trie; it holds nothing under the key and, under every other key,
what the receiver held. -/
theorem Remove_valueAt (t : Trie Ty El) (key : List Char) :
    ∃ t2, t.Remove key = .ok t2 ∧
      ∀ k, t2.valueAt k = if k = key then none else t.valueAt k := by
  unfold Trie.Remove
  cases hr : t.root_ with
  | none =>
    refine ⟨t, rfl, ?_⟩
    intro k
    simp [Trie.valueAt, hr]
  | some root =>
    cases key with
    | nil =>
      simp only [List.isEmpty_nil, if_true]
      cases hv : root.is_value_node_ with
      | false =>
        refine ⟨t, by simp, ?_⟩
        intro k
        by_cases hk : k = []
        · subst hk
          simp [Trie.valueAt, hr, lookup_nil, value_none_of_not_value hv]
        · simp [hk]
      | true =>
        cases hc : root.children_ with
        | nil =>
          refine ⟨⟨none⟩, by simp, ?_⟩
          intro k
          cases k with
          | nil => rfl
          | cons a l => simp [Trie.valueAt, hr, lookup_children_nil hc]
        | cons e cs =>
          refine ⟨⟨some (.mk (e :: cs) none)⟩, by simp, ?_⟩
          intro k
          cases k with
          | nil => rfl
          | cons a l => simp [Trie.valueAt, hr, lookup_cons, children_mk, hc]
    | cons c rest =>
      simp only [List.isEmpty_cons, Bool.false_eq_true, if_false]
      cases hw : walk root (c :: rest) with
      | none =>
        refine ⟨t, rfl, ?_⟩
        intro k
        by_cases hk : k = c :: rest
        · subst hk
          simp [Trie.valueAt, hr, lookup, hw]
        · simp [hk]
      | some m =>
        cases hv : m.is_value_node_ with
        | false =>
          refine ⟨t, by simp [hv], ?_⟩
          intro k
          by_cases hk : k = c :: rest
          · subst hk
            simp [Trie.valueAt, hr, lookup, hw, value_none_of_not_value hv]
          · simp [hk]
        | true =>
          obtain ⟨r, h1, h2⟩ := Remove_Function_spec (c :: rest) root m hw
          refine ⟨⟨r⟩, by simp [h1, hv], ?_⟩
          intro k
          rw [h2 k]
          simp [Trie.valueAt, hr]

theorem node_value_of_valueAt {t : Trie Ty El} {key : List Char} {n : TrieNode Ty El}
    (h : t.node key = some n) : t.valueAt key = n.value_ := by
  unfold Trie.node at h
  unfold Trie.valueAt lookup
  cases hr : t.root_ with
  | none => rw [hr] at h; cases h
  | some root =>
    rw [hr] at h
    simp only at h ⊢
    rw [h]

theorem node_of_valueAt_some {t : Trie Ty El} {key : List Char} {p : Sigma El}
    (h : t.valueAt key = some p) : ∃ n, t.node key = some n ∧ n.value_ = some p := by
  unfold Trie.valueAt lookup at h
  unfold Trie.node
  cases hr : t.root_ with
  | none => rw [hr] at h; cases h
  | some root =>
    rw [hr] at h
    simp only at h ⊢
    cases hw : walk root key with
    | none => rw [hw] at h; cases h
    | some m => rw [hw] at h; exact ⟨m, rfl, h⟩

theorem walk_append_some {key2 : List Char} :
    ∀ (key1 : List Char) {n m : TrieNode Ty El}, walk n (key1 ++ key2) = some m →
      ∃ mid, walk n key1 = some mid := by
  intro key1
  induction key1 with
  | nil => intro n m _; exact ⟨n, rfl⟩
  | cons c rest ih =>
    intro n m h
    obtain ⟨child, hf, hw⟩ := walk_cons_some h
    obtain ⟨mid, hm⟩ := ih hw
    refine ⟨mid, ?_⟩
    simp only [walk, hf, hm]

/-- A key that leads to no value-bearing node: `Remove` returns the receiver. -/
theorem Remove_noop (t : Trie Ty El) (key : List Char)
    (h : ∀ n, t.node key = some n → n.is_value_node_ = false) : t.Remove key = .ok t := by
  unfold Trie.Remove
  unfold Trie.node at h
  cases hr : t.root_ with
  | none => rfl
  | some root =>
    rw [hr] at h
    simp only at h ⊢
    cases key with
    | nil =>
      have := h root rfl
      simp [this]
    | cons c rest =>
      simp only [List.isEmpty_cons, Bool.false_eq_true, if_false]
      cases hw : walk root (c :: rest) with
      | none => rfl
      | some m =>
        have := h m hw
        simp [this]

/-! ## Valid maps and dead nodes are preserved -/

theorem AllNodes_self {P : TrieNode Ty El → Prop} {n : TrieNode Ty El} (h : AllNodes P n) :
    P n := h [] n rfl

theorem AllNodes_child {P : TrieNode Ty El → Prop} {n ch : TrieNode Ty El} {c : Char}
    (h : AllNodes P n) (hf : find n.children_ c = some ch) : AllNodes P ch := by
  intro key m hw
  exact h (c :: key) m (by simp only [walk, hf, hw])

theorem AllNodes_intro {P : TrieNode Ty El → Prop} {n : TrieNode Ty El} (h0 : P n)
    (h1 : ∀ c ch, find n.children_ c = some ch → AllNodes P ch) : AllNodes P n := by
  intro key m hw
  cases key with
  | nil =>
    simp only [walk, Option.some.injEq] at hw
    subst hw
    exact h0
  | cons c rest =>
    obtain ⟨ch, hf, hw2⟩ := walk_cons_some hw
    exact h1 c ch hf rest m hw2

theorem NodeSound_assign {cs : List (Char × TrieNode Ty El)} (h : KeysSorted cs) (c : Char)
    (x : TrieNode Ty El) (val : Option (Sigma El)) : NodeSound (.mk (assign cs c x) val) := by
  refine ⟨KeysSorted_assign h c x, ?_⟩
  simp only [TrieNode.dead, children_mk]
  cases hh : assign cs c x with
  | nil => exact absurd hh (assign_ne_nil cs c x)
  | cons e m => simp

theorem NodeSound_value {cs : List (Char × TrieNode Ty El)} (h : KeysSorted cs) (v : Sigma El) :
    NodeSound (.mk cs (some v)) := by
  refine ⟨h, ?_⟩
  simp [TrieNode.dead, TrieNode.is_value_node_, value_mk]

theorem AllNodes_assign {cs : List (Char × TrieNode Ty El)} (hs : KeysSorted cs)
    (hch : ∀ c ch, find cs c = some ch → AllNodes NodeSound ch) (c : Char) {x : TrieNode Ty El}
    (hx : AllNodes NodeSound x) (val : Option (Sigma El)) :
    AllNodes NodeSound (.mk (assign cs c x) val) := by
  refine AllNodes_intro (NodeSound_assign hs c x val) ?_
  intro c2 ch hf
  rw [children_mk] at hf
  by_cases hc : c2 = c
  · subst hc
    rw [find_assign_same] at hf
    cases hf
    exact hx
  · rw [find_assign_ne _ _ _ _ hc] at hf
    exact hch c2 ch hf

theorem Put_path_single_struct (cur : TrieNode Ty El) (v : Sigma El) (c : Char) :
    ∃ cs, Put_path cur v [c] = .ok (.mk (assign cur.children_ c (.mk cs (some v))) cur.value_) ∧
      ((find cur.children_ c = none ∧ cs = []) ∨
        ∃ child, find cur.children_ c = some child ∧ cs = child.children_) := by
  unfold Put_path
  cases h : find cur.children_ c with
  | none => exact ⟨[], rfl, Or.inl ⟨rfl, rfl⟩⟩
  | some child => exact ⟨child.children_, by simp [Clone_eq], Or.inr ⟨child, rfl, rfl⟩⟩

theorem KeysSorted_nil {α : Type} : KeysSorted ([] : List (Char × α)) := by
  simp [KeysSorted]

/-- The path part of `Put` keeps every children map valid and creates no dead node. -/
theorem Put_path_sound (v : Sigma El) (key : List Char) :
    ∀ cur n : TrieNode Ty El, KeysSorted cur.children_ →
      (∀ c ch, find cur.children_ c = some ch → AllNodes NodeSound ch) →
      Put_path cur v key = .ok n → AllNodes NodeSound n := by
  induction key with
  | nil => intro cur n _ _ h; simp [Put_path] at h
  | cons c rest ih =>
    intro cur n hs hch h
    cases rest with
    | nil =>
      obtain ⟨cs, h1, h2⟩ := Put_path_single_struct cur v c
      rw [h1] at h
      cases h
      refine AllNodes_assign hs hch c ?_ _
      rcases h2 with ⟨-, h2⟩ | ⟨child, hf, h2⟩
      · subst h2
        refine AllNodes_intro (NodeSound_value KeysSorted_nil v) ?_
        intro c2 ch hf
        simp [children_mk, find] at hf
      · subst h2
        have hchild := hch c child hf
        refine AllNodes_intro (NodeSound_value (AllNodes_self hchild).1 v) ?_
        intro c2 ch hf2
        rw [children_mk] at hf2
        exact AllNodes_child hchild hf2
    | cons c2 rest2 =>
      obtain ⟨nn, -, hn1, hn2⟩ := Put_path_cons cur v c c2 rest2
      rw [hn2] at h
      cases hp : Put_path nn v (c2 :: rest2) with
      | error e => rw [hp] at h; cases h
      | ok n2 =>
        rw [hp] at h
        cases h
        refine AllNodes_assign hs hch c ?_ _
        refine ih nn n2 ?_ ?_ hp
        · rcases hn1 with ⟨-, hn1⟩ | hn1
          · subst hn1; exact KeysSorted_nil
          · exact (AllNodes_self (hch c nn hn1)).1
        · intro c3 ch hf
          rcases hn1 with ⟨-, hn1⟩ | hn1
          · subst hn1; simp [children_mk, find] at hf
          · exact AllNodes_child (hch c nn hn1) hf

theorem Put_sound {t t2 : Trie Ty El} {key : List Char} {v : Sigma El} (hs : t.Sound)
    (h : t.Put key v = .ok t2) : t2.Sound := by
  unfold Trie.Put at h
  cases hr : t.root_ with
  | none =>
    rw [hr] at h
    simp only at h
    cases hp : Put_path (if key.isEmpty = true then TrieNode.mk [] (some v)
        else TrieNode.mk [] none) v key with
    | error e => rw [hp] at h; cases h
    | ok n =>
      rw [hp] at h
      cases h
      intro root hroot
      cases hroot
      cases key with
      | nil => simp [Put_path] at hp
      | cons c rest =>
        refine Put_path_sound v (c :: rest) _ _ ?_ ?_ hp
        · simp only [List.isEmpty_cons, Bool.false_eq_true, if_false, children_mk]
          exact KeysSorted_nil
        · intro c2 ch hf
          simp [children_mk, find] at hf
  | some root =>
    rw [hr] at h
    have hroot := hs root hr
    cases key with
    | nil =>
      simp only [List.isEmpty_nil, if_true, Clone_eq] at h
      cases h
      intro r hr2
      cases hr2
      refine AllNodes_intro (NodeSound_value (AllNodes_self hroot).1 v) ?_
      intro c2 ch hf
      rw [children_mk] at hf
      exact AllNodes_child hroot hf
    | cons c rest =>
      simp only [List.isEmpty_cons, Bool.false_eq_true, if_false, Clone_eq] at h
      cases hp : Put_path root v (c :: rest) with
      | error e => rw [hp] at h; cases h
      | ok n =>
        rw [hp] at h
        cases h
        intro r hr2
        cases hr2
        exact Put_path_sound v (c :: rest) root n (AllNodes_self hroot).1
          (fun c2 ch hf => AllNodes_child hroot hf) hp

theorem NodeSound_plain {cs : List (Char × TrieNode Ty El)} (h : KeysSorted cs) (hne : cs ≠ []) :
    NodeSound (.mk cs none) := by
  refine ⟨h, ?_⟩
  simp only [TrieNode.dead, children_mk]
  cases cs with
  | nil => exact absurd rfl hne
  | cons e m => simp

theorem isEmpty_false_ne_nil {α : Type} {l : List α} (h : ¬ l.isEmpty = true) : l ≠ [] := by
  intro e
  exact h (by simp [e])

/-- What `Remove_Function` returns keeps every children map valid and holds no dead node. -/
theorem Remove_Function_sound (key : List Char) :
    ∀ (cur : TrieNode Ty El) (n : TrieNode Ty El), AllNodes NodeSound cur →
      Remove_Function key cur = .ok (some n) → AllNodes NodeSound n := by
  induction key with
  | nil =>
    intro cur n hcur h
    unfold Remove_Function at h
    by_cases he : cur.children_.isEmpty = true
    · simp [he] at h
    · simp only [he, Bool.false_eq_true, if_false, Except.ok.injEq, Option.some.injEq] at h
      subst h
      refine AllNodes_intro (NodeSound_plain (AllNodes_self hcur).1 (isEmpty_false_ne_nil he)) ?_
      intro c ch hf
      rw [children_mk] at hf
      exact AllNodes_child hcur hf
  | cons c rest ih =>
    intro cur n hcur h
    unfold Remove_Function at h
    cases hf : find cur.children_ c with
    | none => simp [hf] at h
    | some child =>
      cases hr : Remove_Function rest child with
      | error e => simp [hf, hr] at h
      | ok r2 =>
        simp only [hf, hr, Clone_eq] at h
        have hs := (AllNodes_self hcur).1
        have hch : ∀ c ch, find cur.children_ c = some ch → AllNodes NodeSound ch :=
          fun c2 ch hf2 => AllNodes_child hcur hf2
        cases r2 with
        | some n2 =>
          simp only [Option.isSome_some, Bool.true_or, if_true, Except.ok.injEq,
            Option.some.injEq] at h
          subst h
          exact AllNodes_assign hs hch c (ih child n2 (hch c child hf) hr) _
        | none =>
          by_cases hcond : cur.is_value_node_ = true ∨ cur.children_.length > 1
          · have hc2 : (Option.isSome (none : Option (TrieNode Ty El)) || cur.is_value_node_ ||
                decide (cur.children_.length > 1)) = true := by
              rcases hcond with h1 | h1 <;> simp [h1]
            simp only [hc2, if_true, Except.ok.injEq, Option.some.injEq] at h
            subst h
            refine AllNodes_intro ⟨KeysSorted_erase hs c, ?_⟩ ?_
            · simp only [TrieNode.dead, children_mk, TrieNode.is_value_node_, value_mk]
              rcases hcond with h1 | h1
              · simp only [TrieNode.is_value_node_] at h1
                simp [h1]
              · have := erase_ne_nil hs h1 c
                cases he : erase cur.children_ c with
                | nil => exact absurd he this
                | cons e m => simp
            · intro c2 ch hf2
              rw [children_mk] at hf2
              by_cases hc : c2 = c
              · subst hc
                rw [find_erase_same] at hf2
                cases hf2
              · rw [find_erase_ne _ _ _ hc] at hf2
                exact hch c2 ch hf2
          · have h1 : cur.is_value_node_ = false := by
              cases hv : cur.is_value_node_ with
              | false => rfl
              | true => exact absurd (Or.inl hv) hcond
            have h2 : ¬ cur.children_.length > 1 := fun h => hcond (Or.inr h)
            simp [h1, h2] at h

theorem Remove_sound {t t2 : Trie Ty El} {key : List Char} (hs : t.Sound)
    (h : t.Remove key = .ok t2) : t2.Sound := by
  unfold Trie.Remove at h
  cases hr : t.root_ with
  | none =>
    rw [hr] at h
    cases h
    exact hs
  | some root =>
    rw [hr] at h
    have hroot := hs root hr
    simp only at h
    cases key with
    | nil =>
      simp only [List.isEmpty_nil, if_true] at h
      cases hv : root.is_value_node_ with
      | false =>
        simp only [hv, Bool.false_eq_true, if_false, Except.ok.injEq] at h
        subst h
        exact hs
      | true =>
        by_cases he : root.children_.isEmpty = true
        · simp only [hv, he, if_true, Except.ok.injEq] at h
          subst h
          intro r hr2
          cases hr2
        · simp only [hv, he, if_true, Bool.false_eq_true, if_false, Except.ok.injEq] at h
          subst h
          intro r hr2
          cases hr2
          refine AllNodes_intro
            (NodeSound_plain (AllNodes_self hroot).1 (isEmpty_false_ne_nil he)) ?_
          intro c ch hf
          rw [children_mk] at hf
          exact AllNodes_child hroot hf
    | cons c rest =>
      simp only [List.isEmpty_cons, Bool.false_eq_true, if_false] at h
      cases hw : walk root (c :: rest) with
      | none =>
        simp only [hw, Except.ok.injEq] at h
        subst h
        exact hs
      | some m =>
        cases hv : m.is_value_node_ with
        | false =>
          simp only [hw, hv, Bool.not_false, if_true, Except.ok.injEq] at h
          subst h
          exact hs
        | true =>
          simp only [hw, hv, Bool.not_true, Bool.false_eq_true, if_false] at h
          cases hrf : Remove_Function (c :: rest) root with
          | error e => rw [hrf] at h; cases h
          | ok r =>
            rw [hrf] at h
            cases h
            intro r2 hr2
            simp only at hr2
            subst hr2
            exact Remove_Function_sound (c :: rest) root r2 hroot hrf

theorem Sound_empty : (Trie.empty : Trie Ty El).Sound := by
  intro root h
  cases h

theorem Reachable_sound {t : Trie Ty El} (h : Reachable t) : t.Sound := by
  induction h with
  | empty => exact Sound_empty
  | put key value _ hp ih => exact Put_sound ih hp
  | remove key _ hr ih => exact Remove_sound ih hr

theorem NoDeadNode_of_Sound {t : Trie Ty El} (h : t.Sound) : t.NoDeadNode := by
  intro key n hn hdead
  unfold Trie.node at hn
  cases hr : t.root_ with
  | none => rw [hr] at hn; cases hn
  | some root =>
    rw [hr] at hn
    have := (h root hr key n hn).2
    simp [TrieNode.dead, hdead.1, hdead.2] at this

/-! ## `Remove` after `Put` -/

theorem Remove_Function_cons {c : Char} {rest : List Char} {cur child : TrieNode Ty El}
    {r2 : Option (TrieNode Ty El)} :
    find cur.children_ c = some child → Remove_Function rest child = .ok r2 →
    Remove_Function (c :: rest) cur = .ok
      (match r2 with
      | some n => some (.mk (assign cur.children_ c n) cur.value_)
      | none =>
        if cur.is_value_node_ || decide (cur.children_.length > 1)
        then some (.mk (erase cur.children_ c) cur.value_) else none) := by
  intro hf hr
  rw [Remove_Function]
  simp only [hf, hr, Clone_eq]
  cases r2 with
  | some n => simp
  | none =>
    simp only [Option.isSome_none, Bool.false_or]
    split <;> rfl

theorem dead_eq_false_of_find {n ch : TrieNode Ty El} {c : Char}
    (hf : find n.children_ c = some ch) : n.dead = false := by
  simp only [TrieNode.dead]
  cases hc : n.children_ with
  | nil => rw [hc] at hf; cases hf
  | cons e m => simp

/-- Removing the entry `Put` just added under a symbol that had no child gives the node back,
or `nullptr` when the node was dead. -/
theorem remove_added_child {cs : List (Char × TrieNode Ty El)} {c : Char}
    (val : Option (Sigma El)) (x : TrieNode Ty El) (hf : find cs c = none) :
    (if (TrieNode.mk (assign cs c x) val).is_value_node_ ||
        decide ((TrieNode.mk (assign cs c x) val).children_.length > 1)
      then some (TrieNode.mk (erase (TrieNode.mk (assign cs c x) val).children_ c)
        (TrieNode.mk (assign cs c x) val).value_)
      else none) =
    if (TrieNode.mk cs val).dead then none else some (TrieNode.mk cs val) := by
  simp only [children_mk, value_mk, erase_assign x hf, length_assign x hf, TrieNode.dead,
    TrieNode.is_value_node_]
  cases val with
  | some p => simp
  | none =>
    cases cs with
    | nil => simp
    | cons e m => simp

theorem walk_of_lookup_some {n : TrieNode Ty El} {key : List Char} {p : Sigma El}
    (h : lookup n key = some p) : ∃ m, walk n key = some m ∧ m.value_ = some p := by
  unfold lookup at h
  cases hw : walk n key with
  | none => rw [hw] at h; cases h
  | some m => rw [hw] at h; exact ⟨m, rfl, h⟩

/-- On a node whose subtrees are valid and hold no dead node, and which holds nothing under the
key, `Remove_Function` undoes the path part of `Put`. -/
theorem Remove_Function_Put_path (v : Sigma El) (key : List Char) :
    ∀ cur : TrieNode Ty El, key ≠ [] → KeysSorted cur.children_ →
      (∀ c ch, find cur.children_ c = some ch → AllNodes NodeSound ch) →
      lookup cur key = none →
      ∃ n, Put_path cur v key = .ok n ∧
        Remove_Function key n = .ok (if cur.dead then none else some cur) := by
  induction key with
  | nil => intro cur h; exact absurd rfl h
  | cons c rest ih =>
    intro cur _ hs hch habs
    cases rest with
    | nil =>
      obtain ⟨cs, h1, h2⟩ := Put_path_single_struct cur v c
      refine ⟨_, h1, ?_⟩
      rcases h2 with ⟨hf, h2⟩ | ⟨child, hf, h2⟩
      · subst h2
        have hleaf : Remove_Function [] (TrieNode.mk [] (some v) : TrieNode Ty El) = .ok none := by
          simp [Remove_Function, children_mk]
        rw [Remove_Function_cons (by rw [children_mk, find_assign_same]) hleaf]
        simp only
        rw [remove_added_child cur.value_ _ hf, mk_eta]
      · subst h2
        rw [lookup_cons, hf] at habs
        simp only [lookup_nil] at habs
        have hchild := AllNodes_self (hch c child hf)
        have hne : child.children_.isEmpty = false := by
          have := hchild.2
          simp only [TrieNode.dead, TrieNode.is_value_node_, habs] at this
          simpa using this
        have hleaf : Remove_Function [] (TrieNode.mk child.children_ (some v)) =
            .ok (some child) := by
          simp only [Remove_Function, children_mk, hne, Bool.false_eq_true, if_false]
          rw [← habs, mk_eta]
        rw [Remove_Function_cons (by rw [children_mk, find_assign_same]) hleaf]
        simp only [children_mk, value_mk, assign_assign, assign_self hs hf, mk_eta,
          dead_eq_false_of_find hf, Bool.false_eq_true, if_false]
    | cons c2 rest2 =>
      obtain ⟨nn, hn0, hn1, hn2⟩ := Put_path_cons cur v c c2 rest2
      have habs2 : lookup nn (c2 :: rest2) = none := by rw [hn0]; exact habs
      have hs2 : KeysSorted nn.children_ := by
        rcases hn1 with ⟨-, hn1⟩ | hn1
        · subst hn1; exact KeysSorted_nil
        · exact (AllNodes_self (hch c nn hn1)).1
      have hch2 : ∀ c ch, find nn.children_ c = some ch → AllNodes NodeSound ch := by
        intro c3 ch hf
        rcases hn1 with ⟨-, hn1⟩ | hn1
        · subst hn1; simp [children_mk, find] at hf
        · exact AllNodes_child (hch c nn hn1) hf
      obtain ⟨n2, hp, hrem⟩ := ih nn (by simp) hs2 hch2 habs2
      rw [hp] at hn2
      refine ⟨_, hn2, ?_⟩
      rw [Remove_Function_cons (by rw [children_mk, find_assign_same]) hrem]
      rcases hn1 with ⟨hf, hn1⟩ | hf
      · subst hn1
        have hd : (TrieNode.mk [] none : TrieNode Ty El).dead = true := rfl
        simp only [hd, if_true]
        rw [remove_added_child cur.value_ _ hf, mk_eta]
      · have hd : nn.dead = false := (AllNodes_self (hch c nn hf)).2
        simp only [hd, Bool.false_eq_true, if_false, children_mk, value_mk, assign_assign,
          assign_self hs hf, mk_eta, dead_eq_false_of_find hf]

/-- Outside the empty key on the empty trie, on a trie with valid children maps and no dead node
that holds nothing under the key, `Remove` undoes `Put`. -/
theorem Remove_Put_inverse (t : Trie Ty El) (key : List Char) (v : Sigma El) (hs : t.Sound)
    (habs : t.valueAt key = none) (hne : t.root_ ≠ none ∨ key ≠ []) :
    ∃ t1, t.Put key v = .ok t1 ∧ t1.Remove key = .ok t ∧ t.Remove key = .ok t := by
  have hnoop : t.Remove key = .ok t := by
    refine Remove_noop t key ?_
    intro n hn
    have := node_value_of_valueAt hn
    rw [habs] at this
    simp [TrieNode.is_value_node_, ← this]
  obtain ⟨t1, hput, hval⟩ := Put_valueAt t key v hne
  refine ⟨t1, hput, ?_, hnoop⟩
  obtain ⟨root, hroot⟩ : ∃ r, t = Trie.mk r := ⟨t.root_, rfl⟩
  subst hroot
  unfold Trie.Put at hput
  unfold Trie.valueAt at habs
  cases root with
  | none =>
    have hk : key ≠ [] := by
      rcases hne with h | h
      · exact absurd rfl h
      · exact h
    obtain ⟨c, rest, hkey⟩ : ∃ c rest, key = c :: rest := by
      cases key with
      | nil => exact absurd rfl hk
      | cons c rest => exact ⟨c, rest, rfl⟩
    subst hkey
    simp only [List.isEmpty_cons, Bool.false_eq_true, if_false] at hput
    obtain ⟨n, hp, hrem⟩ := Remove_Function_Put_path v (c :: rest)
      (TrieNode.mk [] none : TrieNode Ty El) (by simp) KeysSorted_nil
      (by intro c2 ch hf; simp [children_mk, find] at hf)
      (lookup_leaf none c rest)
    rw [hp] at hput
    cases hput
    obtain ⟨n2, hn2, -, hl⟩ := Put_path_spec v (c :: rest)
      (TrieNode.mk [] none : TrieNode Ty El) (by simp)
    rw [hp] at hn2
    cases hn2
    obtain ⟨m, hw, hm⟩ := walk_of_lookup_some (by rw [hl]; simp : lookup n (c :: rest) = some v)
    have hd : (TrieNode.mk [] none : TrieNode Ty El).dead = true := rfl
    simp only [Trie.Remove, List.isEmpty_cons, Bool.false_eq_true, if_false, hw,
      TrieNode.is_value_node_, hm, Option.isSome_some, Bool.not_true, hrem, hd, if_true]
  | some root =>
    have hroot := hs root rfl
    simp only at habs
    cases key with
    | nil =>
      simp only [List.isEmpty_nil, if_true, Clone_eq] at hput
      cases hput
      rw [lookup_nil] at habs
      have hne2 : root.children_.isEmpty = false := by
        have := (AllNodes_self hroot).2
        simp only [TrieNode.dead, TrieNode.is_value_node_, habs] at this
        simpa using this
      simp only [Trie.Remove, List.isEmpty_nil, if_true, TrieNode.is_value_node_, value_mk,
        Option.isSome_some, children_mk, hne2, Bool.false_eq_true, if_false]
      rw [← habs, mk_eta]
    | cons c rest =>
      simp only [List.isEmpty_cons, Bool.false_eq_true, if_false, Clone_eq] at hput
      obtain ⟨n, hp, hrem⟩ := Remove_Function_Put_path v (c :: rest) root (by simp)
        (AllNodes_self hroot).1 (fun c2 ch hf => AllNodes_child hroot hf) habs
      rw [hp] at hput
      cases hput
      obtain ⟨n2, hn2, -, hl⟩ := Put_path_spec v (c :: rest) root (by simp)
      rw [hp] at hn2
      cases hn2
      obtain ⟨m, hw, hm⟩ := walk_of_lookup_some (by rw [hl]; simp : lookup n (c :: rest) = some v)
      have hd : root.dead = false := (AllNodes_self hroot).2
      simp only [Trie.Remove, List.isEmpty_cons, Bool.false_eq_true, if_false, hw,
        TrieNode.is_value_node_, hm, Option.isSome_some, Bool.not_true, hrem, hd]

/-! ## `Get` after `Put` -/

theorem castTo_some [DecidableEq Ty] (V : Ty) (v : El V) :
    castTo V (some (⟨V, v⟩ : Sigma El)) = some v := by
  simp [castTo]

theorem castTo_ne [DecidableEq Ty] {U V : Ty} (h : U ≠ V) (v : El V) :
    castTo U (some (⟨V, v⟩ : Sigma El)) = none := by
  have : ¬ V = U := fun e => h e.symm
  simp [castTo, this]

/-- Round trip outside the empty key on the empty trie. -/
theorem Put_Get_same [DecidableEq Ty] (t : Trie Ty El) (key : List Char) (V : Ty) (v : El V)
    (h : t.root_ ≠ none ∨ key ≠ []) :
    ∃ t2, t.Put key ⟨V, v⟩ = .ok t2 ∧ t2.Get V key = some v := by
  obtain ⟨t2, h1, h2⟩ := Put_valueAt t key ⟨V, v⟩ h
  refine ⟨t2, h1, ?_⟩
  rw [Get_eq_castTo, h2 key, if_pos rfl, castTo_some]

/-- No other key changes, outside the empty key on the empty trie. -/
theorem Put_Get_other [DecidableEq Ty] (t : Trie Ty El) (key key2 : List Char) (v : Sigma El)
    (h : t.root_ ≠ none ∨ key ≠ []) (hk : key2 ≠ key) :
    ∃ t2, t.Put key v = .ok t2 ∧ ∀ U, t2.Get U key2 = t.Get U key2 := by
  obtain ⟨t2, h1, h2⟩ := Put_valueAt t key v h
  refine ⟨t2, h1, ?_⟩
  intro U
  rw [Get_eq_castTo, Get_eq_castTo, h2 key2, if_neg hk]

/-- A value of another type is not seen, outside the empty key on the empty trie. -/
theorem Put_Get_mismatch [DecidableEq Ty] (t : Trie Ty El) (key : List Char) (U V : Ty)
    (v : El V) (h : t.root_ ≠ none ∨ key ≠ []) (hU : U ≠ V) :
    ∃ t2, t.Put key ⟨V, v⟩ = .ok t2 ∧ t2.Get U key = none := by
  obtain ⟨t2, h1, h2⟩ := Put_valueAt t key ⟨V, v⟩ h
  refine ⟨t2, h1, ?_⟩
  rw [Get_eq_castTo, h2 key, if_pos rfl, castTo_ne hU]

theorem walk_iff_Reaches (key : List Char) :
    ∀ n m : TrieNode Ty El, walk n key = some m ↔ Reaches n key m := by
  induction key with
  | nil =>
    intro n m
    constructor
    · intro h
      simp only [walk, Option.some.injEq] at h
      subst h
      exact Reaches.here n
    · intro h
      cases h
      rfl
  | cons c rest ih =>
    intro n m
    constructor
    · intro h
      obtain ⟨child, hf, hw⟩ := walk_cons_some h
      exact Reaches.step hf ((ih child m).1 hw)
    · intro h
      cases h with
      | step hf hr =>
        simp only [walk, hf]
        exact (ih _ m).2 hr

theorem castTo_eq_some [DecidableEq Ty] (U : Ty) (o : Option (Sigma El)) (x : El U) :
    castTo U o = some x ↔ o = some ⟨U, x⟩ := by
  cases o with
  | none => simp [castTo]
  | some p =>
    obtain ⟨t, v⟩ := p
    by_cases h : t = U
    · subst h
      simp [castTo]
    · simp only [castTo, h, dite_false, Option.some.injEq, false_iff, reduceCtorEq]
      intro e
      cases e
      exact h rfl

/-! ## The properties -/

/-- C1 (round trip), at the empty trie and the empty key: after building the root value node,
`Put` goes on to `key.back()` of the empty key, a read outside the key; no trie is returned, so
no `Get` gives the value back. -/
theorem Put_Get_round_trip_empty_key_empty_trie :
    (Trie.empty : Trie ValueType ValueType.Val).Put [] one = .error .back_of_empty_key ∧
      ¬ ∃ t2, (Trie.empty : Trie ValueType ValueType.Val).Put [] one = .ok t2 ∧
        t2.Get .uint32_t [] = some (1 : Nat) := by
  refine ⟨rfl, ?_⟩
  rintro ⟨t2, h, -⟩
  rw [Put_empty_trie_empty_key] at h
  cases h

/-- C2 (`Put` changes no other key), at the empty trie and the empty key: `Put` reads
`key.back()` of the empty key and returns no trie, so there is no trie in which the other key
`"a"` is as absent as it is in the empty trie. -/
theorem Put_frame_empty_key_empty_trie :
    (Trie.empty : Trie ValueType ValueType.Val).Get .uint32_t ['a'] = none ∧
      ¬ ∃ t2, (Trie.empty : Trie ValueType ValueType.Val).Put [] one = .ok t2 ∧
        t2.Get .uint32_t ['a'] = (Trie.empty : Trie ValueType ValueType.Val).Get .uint32_t ['a'] := by
  refine ⟨rfl, ?_⟩
  rintro ⟨t2, h, -⟩
  rw [Put_empty_trie_empty_key] at h
  cases h

/-- The whole-key `Remove` changes no other key: for `key2 ≠ key` it returns a trie on which
`Get<U>(key2)` is what it was for every value type `U`, and every position on the way to a value
stored under another key than `key` (the position of that value included) is still reachable. -/
theorem Remove_Get_other [DecidableEq Ty] (t : Trie Ty El) (key key2 : List Char)
    (hk : key2 ≠ key) :
    ∃ t2, t.Remove key = .ok t2 ∧ (∀ U, t2.Get U key2 = t.Get U key2) ∧
      ∀ (p q : List Char) (n : TrieNode Ty El), t.node (p ++ q) = some n →
        n.is_value_node_ = true → p ++ q ≠ key → ∃ n2, t2.node p = some n2 := by
  obtain ⟨t2, h1, h2⟩ := Remove_valueAt t key
  refine ⟨t2, h1, ?_, ?_⟩
  · intro U
    rw [Get_eq_castTo, Get_eq_castTo, h2 key2, if_neg hk]
  · intro p q n hn hv hpq
    have h3 := h2 (p ++ q)
    rw [if_neg hpq, node_value_of_valueAt hn] at h3
    simp only [TrieNode.is_value_node_] at hv
    obtain ⟨x, hx⟩ := Option.isSome_iff_exists.1 hv
    rw [hx] at h3
    obtain ⟨n3, hn3, -⟩ := node_of_valueAt_some h3
    unfold Trie.node at hn3 ⊢
    cases hr : t2.root_ with
    | none => rw [hr] at hn3; cases hn3
    | some root =>
      rw [hr] at hn3
      exact walk_append_some p hn3

/-- The whole-key `Remove` of an absent key: when the trie is empty, or the path of the key is
broken, or the node the key leads to is not value-bearing, it returns the receiver itself. -/
theorem Remove_absent_key_noop (t : Trie Ty El) (key : List Char)
    (h : t.root_ = none ∨ t.node key = none ∨
      ∃ n, t.node key = some n ∧ n.is_value_node_ = false) :
    t.Remove key = .ok t := by
  refine Remove_noop t key ?_
  intro n hn
  rcases h with h | h | ⟨n2, h, hv⟩
  · simp [Trie.node, h] at hn
  · rw [h] at hn; cases hn
  · rw [h] at hn
    cases hn
    exact hv

/-- C6: `Remove(key)` returns a trie, and `Remove(key)` on that trie returns the same trie. -/
theorem Remove_idempotent (t : Trie Ty El) (key : List Char) :
    ∃ t2, t.Remove key = .ok t2 ∧ t2.Remove key = .ok t2 := by
  obtain ⟨t2, h1, h2⟩ := Remove_valueAt t key
  refine ⟨t2, h1, Remove_noop t2 key ?_⟩
  intro n hn
  have := node_value_of_valueAt hn
  rw [h2 key, if_pos rfl] at this
  simp [TrieNode.is_value_node_, ← this]

/-- C7 (`Remove` undoes `Put`), at the empty trie and the empty key: the empty trie has no dead
node and holds nothing under the empty key, and `Remove("")` returns it unchanged, but `Put`
reads `key.back()` of the empty key and returns no trie that `Remove` could lead back. -/
theorem Remove_Put_empty_key_empty_trie :
    (Trie.empty : Trie ValueType ValueType.Val).NoDeadNode ∧
      (Trie.empty : Trie ValueType ValueType.Val).valueAt [] = none ∧
      (Trie.empty : Trie ValueType ValueType.Val).Remove [] = .ok Trie.empty ∧
      ¬ ∃ t1, (Trie.empty : Trie ValueType ValueType.Val).Put [] one = .ok t1 ∧
        t1.Remove [] = .ok Trie.empty := by
  refine ⟨NoDeadNode_of_Sound Sound_empty, rfl, rfl, ?_⟩
  rintro ⟨t1, h, -⟩
  rw [Put_empty_trie_empty_key] at h
  cases h

/-- C8 (type-mismatch safety), at the empty trie and the empty key: `Put<uint32_t>` reads
`key.back()` of the empty key, a fault, and returns no trie on which `Get<string>` could be
absent. -/
theorem Put_Get_mismatch_empty_key_empty_trie :
    (Trie.empty : Trie ValueType ValueType.Val).Put [] one = .error .back_of_empty_key ∧
      ¬ ∃ t2, (Trie.empty : Trie ValueType ValueType.Val).Put [] one = .ok t2 ∧
        t2.Get .string [] = none := by
  refine ⟨rfl, ?_⟩
  rintro ⟨t2, h, -⟩
  rw [Put_empty_trie_empty_key] at h
  cases h

/-- C9: in every trie obtained from the empty trie by a finite sequence of `Put` and `Remove`,
no reachable node, the root included, is both non-value-bearing and childless. -/
theorem Reachable_NoDeadNode (t : Trie Ty El) (h : Reachable t) : t.NoDeadNode :=
  NoDeadNode_of_Sound (Reachable_sound h)

/-- C10: `Get<U>(key)` is present with value `x` exactly when the reference definition holds:
the trie is not empty, the key leads from the root to a node, and that node is value-bearing
with the stored value `x` of type `U`; on the empty trie `Get` is absent. -/
theorem Get_iff_GetSpec [DecidableEq Ty] (t : Trie Ty El) (U : Ty) (key : List Char) :
    (∀ x : El U, t.Get U key = some x ↔ GetSpec t U key x) ∧
      (Trie.empty : Trie Ty El).Get U key = none := by
  refine ⟨?_, rfl⟩
  intro x
  rw [Get_eq_castTo, castTo_eq_some]
  constructor
  · intro h
    obtain ⟨n, hn, hv⟩ := node_of_valueAt_some h
    unfold Trie.node at hn
    cases hr : t.root_ with
    | none => rw [hr] at hn; cases hn
    | some root =>
      rw [hr] at hn
      exact ⟨root, n, hr, (walk_iff_Reaches key root n).1 hn,
        by simp [TrieNode.is_value_node_, hv], hv⟩
  · rintro ⟨root, n, hr, hreach, -, hv⟩
    have hn : t.node key = some n := by
      unfold Trie.node
      rw [hr]
      exact (walk_iff_Reaches key root n).2 hreach
    rw [node_value_of_valueAt hn, hv]

/-! ## The properties at concrete inputs -/

theorem Reachable_NoDeadNode_witness : Reachable exampleTrie ∧ exampleTrie.NoDeadNode :=
  have h : Reachable exampleTrie :=
    Reachable.put ['a', 'b'] two
      (Reachable.put ['a'] one Reachable.empty
        (rfl : (Trie.empty : Trie ValueType ValueType.Val).Put ['a'] one
          = .ok ⟨some (.mk [('a', .mk [] (some one))] none)⟩))
      rfl
  ⟨h, Reachable_NoDeadNode exampleTrie h⟩

/-! ## `Put` into the empty trie -/

theorem count_chain (v : Sigma El) (key : List Char) :
    (chain v key : TrieNode Ty El).count = key.length + 1 := by
  induction key with
  | nil => simp [chain, TrieNode.count, countList]
  | cons c key ih =>
    simp only [chain, TrieNode.count, countList, ih, List.length_cons]
    omega

theorem Put_path_chain (v : Sigma El) (key : List Char) (h : key ≠ []) :
    Put_path (TrieNode.mk [] none : TrieNode Ty El) v key = .ok (chain v key) := by
  induction key with
  | nil => exact absurd rfl h
  | cons c rest ih =>
    cases rest with
    | nil => rfl
    | cons c2 rest2 =>
      have h2 := ih (by simp)
      rw [Put_path]
      simp only [children_mk, find, h2, value_mk]
      rfl

theorem walk_chain (v : Sigma El) (key : List Char) :
    ∀ i, i ≤ key.length →
      walk (chain v key : TrieNode Ty El) (key.take i) = some (chain v (key.drop i)) := by
  induction key with
  | nil => intro i _; simp [walk]
  | cons c rest ih =>
    intro i hi
    cases i with
    | zero => simp [walk]
    | succ j =>
      simp only [List.take_succ_cons, List.drop_succ_cons, walk, chain, children_mk, find,
        if_true]
      exact ih j (by simpa using hi)

theorem walk_prefix_find (key : List Char) :
    ∀ (cur n : TrieNode Ty El), walk cur key = some n → ∀ i (hi : i < key.length),
      ∃ m child, walk cur (key.take i) = some m ∧ find m.children_ key[i] = some child := by
  induction key with
  | nil => intro cur n _ i hi; simp at hi
  | cons c rest ih =>
    intro cur n hw i hi
    obtain ⟨child, hf, hw2⟩ := walk_cons_some hw
    cases i with
    | zero => exact ⟨cur, child, rfl, hf⟩
    | succ j =>
      obtain ⟨m, ch, h1, h2⟩ := ih child n hw2 j (by simpa using hi)
      refine ⟨m, ch, ?_, ?_⟩
      · simp only [List.take_succ_cons, walk, hf, h1]
      · simpa using h2

theorem Remove_Function_ok_iff (key : List Char) :
    ∀ cur : TrieNode Ty El,
      (∃ r, Remove_Function key cur = .ok r) ↔ ∃ m, walk cur key = some m := by
  induction key with
  | nil =>
    intro cur
    constructor
    · intro _; exact ⟨cur, rfl⟩
    · intro h
      obtain ⟨m, hm⟩ := h
      obtain ⟨r, hr, -⟩ := Remove_Function_spec [] cur m hm
      exact ⟨r, hr⟩
  | cons c rest ih =>
    intro cur
    constructor
    · rintro ⟨r, hr⟩
      rw [Remove_Function] at hr
      cases hf : find cur.children_ c with
      | none => simp [hf] at hr
      | some child =>
        cases h2 : Remove_Function rest child with
        | error e => simp [hf, h2] at hr
        | ok r2 =>
          obtain ⟨m, hm⟩ := (ih child).1 ⟨r2, h2⟩
          exact ⟨m, by simp only [walk, hf, hm]⟩
    · rintro ⟨m, hm⟩
      obtain ⟨r, hr, -⟩ := Remove_Function_spec (c :: rest) cur m hm
      exact ⟨r, hr⟩

/-! ## `Put` as a function, and two `Put`s -/

theorem assign_comm {α : Type} {m : List (Char × α)} (h : KeysSorted m) {c1 c2 : Char}
    (hc : c1 ≠ c2) (x y : α) :
    assign (assign m c1 x) c2 y = assign (assign m c2 y) c1 x := by
  induction m with
  | nil =>
    rcases lt_trichotomy c1 c2 with h1 | h1 | h1
    · have h2 : ¬ c2 < c1 := lt_asymm h1
      have h3 : ¬ c2 = c1 := fun e => hc e.symm
      simp [assign, h1, h2, h3]
    · exact absurd h1 hc
    · have h2 : ¬ c1 < c2 := lt_asymm h1
      simp [assign, h1, h2, hc]
  | cons e m ih =>
    obtain ⟨k, z⟩ := e
    unfold KeysSorted at h ih
    simp only [List.map_cons, List.pairwise_cons] at h
    have ih2 := ih h.2
    have hc' : ¬ c2 = c1 := fun e => hc e.symm
    rcases lt_trichotomy c1 k with a1 | a1 | a1 <;>
    rcases lt_trichotomy c2 k with a2 | a2 | a2 <;>
    rcases lt_trichotomy c1 c2 with a3 | a3 | a3 <;>
    first
    | exact absurd a3 hc
    | (subst a1; subst a2; exact absurd rfl hc)
    | skip
    all_goals
      first
      | (subst a1
         simp [assign, a2, a3, lt_asymm a2, lt_asymm a3, hc, hc', lt_irrefl, ne_of_lt, ne_of_gt]
         done)
      | (subst a2
         simp [assign, a1, a3, lt_asymm a1, lt_asymm a3, hc, hc', lt_irrefl, ne_of_lt, ne_of_gt]
         done)
      | (simp [assign, a1, a2, a3, lt_asymm a1, lt_asymm a2, lt_asymm a3, hc, hc', ne_of_lt a1,
           ne_of_lt a2, ne_of_gt a1, ne_of_gt a2, ih2]
         done)
      | exact absurd (lt_trans (lt_trans a1 a2) a3) (lt_irrefl _)
      | exact absurd (lt_trans (lt_trans a2 a1) a3) (lt_irrefl _)
      | (subst a2; exact absurd (lt_trans a3 a1) (lt_irrefl _))
      | (subst a1; exact absurd (lt_trans a2 a3) (lt_irrefl _))

theorem PutTree_none_cons (v : Sigma El) (c : Char) (key : List Char) :
    PutTree v (none : Option (TrieNode Ty El)) (c :: key) =
      PutTree v (some (.mk [] none)) (c :: key) := rfl

theorem PutTree_cons (v : Sigma El) (cur : TrieNode Ty El) (c : Char) (key : List Char) :
    PutTree v (some cur) (c :: key) =
      .mk (assign cur.children_ c (PutTree v (find cur.children_ c) key)) cur.value_ := rfl

/-- For a non-empty key the path part of `Put` returns the tree `PutTree`. -/
theorem Put_path_eq_PutTree (v : Sigma El) (key : List Char) :
    ∀ cur : TrieNode Ty El, key ≠ [] → Put_path cur v key = .ok (PutTree v (some cur) key) := by
  induction key with
  | nil => intro cur h; exact absurd rfl h
  | cons c rest ih =>
    intro cur _
    cases rest with
    | nil =>
      rw [Put_path, PutTree_cons]
      cases hf : find cur.children_ c with
      | none => rfl
      | some child => simp [PutTree, Clone_eq]
    | cons c2 rest2 =>
      rw [Put_path, PutTree_cons]
      cases hf : find cur.children_ c with
      | none =>
        simp only [ih (TrieNode.mk [] none) (by simp)]
        rfl
      | some child => simp only [Clone_eq, ih child (by simp)]

/-- Outside the empty key on the empty trie, `Put` returns the trie with root `PutTree`. -/
theorem Put_eq_PutTree (t : Trie Ty El) (key : List Char) (v : Sigma El)
    (h : t.root_ ≠ none ∨ key ≠ []) : t.Put key v = .ok ⟨some (PutTree v t.root_ key)⟩ := by
  unfold Trie.Put
  cases hr : t.root_ with
  | none =>
    have hk : key ≠ [] := by
      rcases h with h | h
      · exact absurd hr h
      · exact h
    cases key with
    | nil => exact absurd rfl hk
    | cons c rest =>
      simp only [List.isEmpty_cons, Bool.false_eq_true, if_false,
        Put_path_eq_PutTree v (c :: rest) _ hk, PutTree_none_cons]
  | some root =>
    cases key with
    | nil => simp [PutTree, Clone_eq]
    | cons c rest =>
      simp only [List.isEmpty_cons, Bool.false_eq_true, if_false, Clone_eq,
        Put_path_eq_PutTree v (c :: rest) root (by simp)]

theorem PutTree_PutTree_same (v1 v2 : Sigma El) (key : List Char) :
    ∀ o : Option (TrieNode Ty El),
      PutTree v2 (some (PutTree v1 o key)) key = PutTree v2 o key := by
  induction key with
  | nil => intro o; simp [PutTree, children_mk]
  | cons c rest ih =>
    intro o
    cases o with
    | none =>
      rw [PutTree_none_cons, PutTree_none_cons, PutTree_cons v1, PutTree_cons v2,
        PutTree_cons v2]
      simp only [children_mk, value_mk, find_assign_same, assign_assign, ih]
    | some cur =>
      rw [PutTree_cons v1, PutTree_cons v2, PutTree_cons v2]
      simp only [children_mk, value_mk, find_assign_same, assign_assign, ih]

theorem PutTree_children_nil (v : Sigma El) (o : Option (TrieNode Ty El)) :
    (PutTree v o []).children_ =
      (match o with
      | some n => n.children_
      | none => []) := rfl

theorem PutTree_comm_nil (v1 v2 : Sigma El) (o : Option (TrieNode Ty El)) (c : Char)
    (rest : List Char) :
    PutTree v2 (some (PutTree v1 o [])) (c :: rest) =
      PutTree v1 (some (PutTree v2 o (c :: rest))) [] := by
  cases o with
  | none => rfl
  | some cur => rfl

/-- Two `PutTree`s under distinct keys commute when the children maps are valid. -/
theorem PutTree_comm (v1 v2 : Sigma El) (k1 : List Char) :
    ∀ (k2 : List Char) (o : Option (TrieNode Ty El)), k1 ≠ k2 →
      (∀ n, o = some n → AllNodes (fun m => KeysSorted m.children_) n) →
      PutTree v2 (some (PutTree v1 o k1)) k2 = PutTree v1 (some (PutTree v2 o k2)) k1 := by
  induction k1 with
  | nil =>
    intro k2 o hk _
    cases k2 with
    | nil => exact absurd rfl hk
    | cons c rest => exact PutTree_comm_nil v1 v2 o c rest
  | cons c1 r1 ih =>
    intro k2 o hk hs
    cases k2 with
    | nil => exact (PutTree_comm_nil v2 v1 o c1 r1).symm
    | cons c2 r2 =>
      have key : ∀ cur : TrieNode Ty El, AllNodes (fun m => KeysSorted m.children_) cur →
          PutTree v2 (some (PutTree v1 (some cur) (c1 :: r1))) (c2 :: r2) =
            PutTree v1 (some (PutTree v2 (some cur) (c2 :: r2))) (c1 :: r1) := by
        intro cur hcur
        rw [PutTree_cons v1 cur, PutTree_cons v2 cur, PutTree_cons v2, PutTree_cons v1]
        simp only [children_mk, value_mk]
        by_cases hc : c1 = c2
        · subst hc
          have hr : r1 ≠ r2 := fun e => hk (by rw [e])
          simp only [find_assign_same, assign_assign]
          rw [ih r2 (find cur.children_ c1) hr
            (fun n hn => AllNodes_child hcur hn)]
        · have hc2 : c2 ≠ c1 := fun e => hc e.symm
          rw [find_assign_ne _ _ _ _ hc2, find_assign_ne _ _ _ _ hc,
            assign_comm (AllNodes_self hcur) hc]
      cases o with
      | none =>
        rw [PutTree_none_cons, PutTree_none_cons]
        refine key _ ?_
        intro kk m hw
        cases kk with
        | nil =>
          simp only [walk, Option.some.injEq] at hw
          subst hw
          exact KeysSorted_nil
        | cons a l => simp [walk, children_mk, find] at hw
      | some cur => exact key cur (hs cur rfl)

/-- Outside the empty key on the empty trie, a second `Put` under the same key gives what it
gives on the receiver of the first. -/
theorem Put_Put_same (t : Trie Ty El) (key : List Char) (v1 v2 : Sigma El)
    (h : t.root_ ≠ none ∨ key ≠ []) :
    ∃ t1 t2, t.Put key v1 = .ok t1 ∧ t1.Put key v2 = .ok t2 ∧ t.Put key v2 = .ok t2 := by
  refine ⟨_, _, Put_eq_PutTree t key v1 h, ?_, Put_eq_PutTree t key v2 h⟩
  rw [Put_eq_PutTree _ key v2 (Or.inl (by simp))]
  simp only [PutTree_PutTree_same]

/-- On a trie with valid children maps, two `Put`s under distinct keys commute, unless the
trie is empty and one of the keys is empty. -/
theorem Put_Put_comm (t : Trie Ty El) (k1 k2 : List Char) (v1 v2 : Sigma El)
    (hv : t.ValidMaps) (hk : k1 ≠ k2) (h : t.root_ ≠ none ∨ (k1 ≠ [] ∧ k2 ≠ [])) :
    ∃ t1 t2 t3, t.Put k1 v1 = .ok t1 ∧ t.Put k2 v2 = .ok t2 ∧
      t1.Put k2 v2 = .ok t3 ∧ t2.Put k1 v1 = .ok t3 := by
  have h1 : t.root_ ≠ none ∨ k1 ≠ [] := h.imp id And.left
  have h2 : t.root_ ≠ none ∨ k2 ≠ [] := h.imp id And.right
  refine ⟨_, _, _, Put_eq_PutTree t k1 v1 h1, Put_eq_PutTree t k2 v2 h2,
    Put_eq_PutTree _ k2 v2 (Or.inl (by simp)), ?_⟩
  rw [Put_eq_PutTree _ k1 v1 (Or.inl (by simp))]
  simp only
  rw [PutTree_comm v1 v2 k1 k2 t.root_ hk (fun n hn => hv n hn)]

/-! ## The heap: what `Put` and `Remove` write -/

theorem Extends_refl (h : List (HNode Ty El)) : Extends h h :=
  ⟨Nat.le_refl _, fun _ _ => rfl⟩

theorem Extends_trans {h1 h2 h3 : List (HNode Ty El)} (a : Extends h1 h2) (b : Extends h2 h3) :
    Extends h1 h3 :=
  ⟨Nat.le_trans a.1 b.1, fun x hx => by rw [b.2 x (Nat.lt_of_lt_of_le hx a.1), a.2 x hx]⟩

theorem Extends_append (h l : List (HNode Ty El)) : Extends h (h ++ l) :=
  ⟨by simp, fun a ha => List.getElem?_append_left ha⟩

theorem getElem?_set_other (h : List (HNode Ty El)) (i a : Nat) (n : HNode Ty El) (hne : a ≠ i) :
    (h.set i n)[a]? = h[a]? := by
  rw [List.getElem?_set_ne (fun e => hne e.symm)]

theorem Extends_append_set (h : List (HNode Ty El)) (x n : HNode Ty El) (i : Nat)
    (hi : h.length ≤ i) : Extends h ((h ++ [x]).set i n) := by
  refine ⟨by simp, fun a ha => ?_⟩
  rw [getElem?_set_other _ _ _ _ (by omega), List.getElem?_append_left ha]

/-- The path part of `Put` writes at `cur_node` and at addresses it allocated only. -/
theorem HPut_path_frame (v : Sigma El) (key : List Char) :
    ∀ (h : List (HNode Ty El)) (cur_node : Nat),
      h.length ≤ (HPut_path v key h cur_node).1.length ∧
        ∀ a, a < h.length → a ≠ cur_node → (HPut_path v key h cur_node).1[a]? = h[a]? := by
  induction key with
  | nil => intro h cur; exact ⟨Nat.le_refl _, fun _ _ _ => rfl⟩
  | cons c rest ih =>
    intro h cur
    cases rest with
    | nil =>
      simp only [HPut_path]
      split
      · exact ⟨Nat.le_refl _, fun _ _ _ => rfl⟩
      · split
        · split
          · exact ⟨Nat.le_refl _, fun _ _ _ => rfl⟩
          · refine ⟨by simp, fun a ha hne => ?_⟩
            rw [getElem?_set_other _ _ _ _ hne, List.getElem?_append_left ha]
        · refine ⟨by simp, fun a ha hne => ?_⟩
          rw [getElem?_set_other _ _ _ _ hne, List.getElem?_append_left ha]
    | cons c2 rest2 =>
      simp only [HPut_path]
      split
      · exact ⟨Nat.le_refl _, fun _ _ _ => rfl⟩
      · split
        · split
          · exact ⟨Nat.le_refl _, fun _ _ _ => rfl⟩
          · refine ⟨Nat.le_trans ?_ (ih _ _).1, fun a ha hne => ?_⟩
            · simp
            · rw [(ih _ _).2 a ?_ ?_, getElem?_set_other _ _ _ _ hne,
                List.getElem?_append_left ha]
              · simp only [List.length_set, List.length_append, List.length_singleton]
                omega
              · omega
        · refine ⟨Nat.le_trans ?_ (ih _ _).1, fun a ha hne => ?_⟩
          · simp
          · rw [(ih _ _).2 a ?_ ?_, getElem?_set_other _ _ _ _ hne,
              List.getElem?_append_left ha]
            · simp only [List.length_set, List.length_append, List.length_singleton]
              omega
            · omega

theorem HPut_frame (h : List (HNode Ty El)) (root_ : Option Nat) (key : List Char)
    (v : Sigma El) : Extends h (HPut h root_ key v).1 := by
  have fresh : ∀ (x : HNode Ty El),
      Extends h (HPut_path v key (h ++ [x]) h.length).1 := by
    intro x
    have := HPut_path_frame v key (h ++ [x]) h.length
    refine ⟨Nat.le_trans (by simp) this.1, fun a ha => ?_⟩
    rw [this.2 a (by simp; omega) (by omega), List.getElem?_append_left ha]
  unfold HPut
  split
  · simp only
    split
    · rename_i heq
      have := fresh (if key.isEmpty then ⟨[], some v⟩ else ⟨[], none⟩)
      split at heq <;> simp_all
    · rename_i heq
      have := fresh (if key.isEmpty then ⟨[], some v⟩ else ⟨[], none⟩)
      split at heq <;> simp_all
  · split
    · exact Extends_refl h
    · split
      · exact Extends_append h _
      · simp only
        rename_i root _ _
        split
        · rename_i heq
          have := fresh root
          rw [heq] at this
          exact this
        · rename_i heq
          have := fresh root
          rw [heq] at this
          exact this

theorem Extends_append_set_fresh (h : List (HNode Ty El)) (x n : HNode Ty El) :
    Extends h ((h ++ [x]).set h.length n) :=
  Extends_append_set h x n h.length (Nat.le_refl _)

/-- The function `Remove_Function` writes at addresses it allocated only. -/
theorem HRemove_Function_frame (key : List Char) :
    ∀ (h : List (HNode Ty El)) (cur_node : Nat),
      Extends h (HRemove_Function key h cur_node).1 := by
  induction key with
  | nil =>
    intro h cur
    simp only [HRemove_Function]
    split
    · exact Extends_refl h
    · split
      · exact Extends_refl h
      · exact Extends_append h _
  | cons c rest ih =>
    intro h cur
    simp only [HRemove_Function]
    split
    · exact Extends_refl h
    · split
      · exact Extends_refl h
      · rename_i child _
        have hrec := ih h child
        split
        · rename_i heq
          rw [heq] at hrec
          exact hrec
        · rename_i h1 children_node heq
          rw [heq] at hrec
          simp only at hrec
          split
          · exact hrec
          · split
            · split
              · exact Extends_trans hrec (Extends_append_set_fresh h1 _ _)
              · exact Extends_trans hrec (Extends_append_set_fresh h1 _ _)
            · exact hrec

theorem HRemove_frame (h : List (HNode Ty El)) (root_ : Option Nat) (key : List Char) :
    Extends h (HRemove h root_ key).1 := by
  unfold HRemove
  split
  · exact Extends_refl h
  · split
    · split
      · exact Extends_refl h
      · split
        · split
          · exact Extends_refl h
          · exact Extends_append h _
        · exact Extends_refl h
    · split
      · exact Extends_refl h
      · exact Extends_refl h
      · split
        · exact Extends_refl h
        · split
          · exact Extends_refl h
          · exact HRemove_Function_frame key h _

theorem mem_of_find {α : Type} {m : List (Char × α)} {c : Char} {x : α}
    (hf : find m c = some x) : (c, x) ∈ m := by
  induction m with
  | nil => cases hf
  | cons e m ih =>
    obtain ⟨k, y⟩ := e
    simp only [find] at hf
    by_cases hk : k = c
    · simp only [hk, if_true, Option.some.injEq] at hf
      simp [hk, hf]
    · simp only [hk, if_false] at hf
      exact List.mem_cons_of_mem _ (ih hf)

/-- On a closed heap, a walk from an address of the heap sees the same objects in every heap
that extends it. -/
theorem HWalk_stable {h h2 : List (HNode Ty El)} (he : Extends h h2) (hc : Closed h)
    (key : List Char) :
    ∀ cur, cur < h.length → HWalk h2 cur key = HWalk h cur key ∧
      ∀ r, HWalk h cur key = .ok (some r) → r < h.length := by
  induction key with
  | nil =>
    intro cur hcur
    refine ⟨rfl, ?_⟩
    intro r hr
    simp only [HWalk, Except.ok.injEq, Option.some.injEq] at hr
    omega
  | cons c rest ih =>
    intro cur hcur
    simp only [HWalk, he.2 cur hcur]
    cases hn : h[cur]? with
    | none => simp
    | some n =>
      simp only
      cases hf : find n.children_ c with
      | none => simp
      | some child =>
        simp only
        exact ih child (hc n (List.getElem?_mem hn) (c, child) (mem_of_find hf))

theorem HGet_stable [DecidableEq Ty] {h h2 : List (HNode Ty El)} (he : Extends h h2)
    (hc : Closed h) (root_ : Option Nat) (hr : ∀ r, root_ = some r → r < h.length) (U : Ty)
    (key : List Char) : HGet h2 root_ U key = HGet h root_ U key := by
  unfold HGet
  cases root_ with
  | none => rfl
  | some root =>
    obtain ⟨h1, h2'⟩ := HWalk_stable he hc key root (hr root rfl)
    simp only [h1]
    cases hw : HWalk h root key with
    | error e => rfl
    | ok o =>
      cases o with
      | none => rfl
      | some cur => simp only [he.2 cur (h2' cur hw)]

/-! ## The heap and the tree: the two embeddings agree -/

mutual
theorem Rep_mono {b b2 : Nat} {h h2 : List (HNode Ty El)} (hb : b ≤ b2)
    (hh : ∀ a, a < b → h2[a]? = h[a]?) :
    ∀ (t : TrieNode Ty El) (a : Nat), Rep b h a t → Rep b2 h2 a t
  | .mk cs v, a, hr => by
    rw [Rep] at hr ⊢
    obtain ⟨ha, hr⟩ := hr
    refine ⟨Nat.lt_of_lt_of_le ha hb, ?_⟩
    rw [hh a ha]
    cases hn : h[a]? with
    | none => rw [hn] at hr; exact hr
    | some n =>
      rw [hn] at hr
      exact ⟨hr.1, RepMap_mono hb hh cs n.children_ hr.2⟩
theorem RepMap_mono {b b2 : Nat} {h h2 : List (HNode Ty El)} (hb : b ≤ b2)
    (hh : ∀ a, a < b → h2[a]? = h[a]?) :
    ∀ (ts : List (Char × TrieNode Ty El)) (m : List (Char × Nat)),
      RepMap b h m ts → RepMap b2 h2 m ts
  | [], [], _ => by rw [RepMap]; trivial
  | [], _ :: _, hr => by rw [RepMap] at hr; exact hr.elim
  | (c2, t) :: ts, [], hr => by rw [RepMap] at hr; exact hr.elim
  | (c2, t) :: ts, e :: m, hr => by
    rw [RepMap] at hr ⊢
    exact ⟨hr.1, Rep_mono hb hh t e.2 hr.2.1, RepMap_mono hb hh ts m hr.2.2⟩
end

theorem Rep_iff {b : Nat} {h : List (HNode Ty El)} {a : Nat} {t : TrieNode Ty El} :
    Rep b h a t ↔ a < b ∧ ∃ n, h[a]? = some n ∧ n.value_ = t.value_ ∧
      RepMap b h n.children_ t.children_ := by
  cases t with
  | mk cs v =>
    rw [Rep]
    simp only [children_mk, value_mk]
    cases h[a]? with
    | none => simp
    | some n => simp

theorem RepMap_find {b : Nat} {h : List (HNode Ty El)} (c : Char) :
    ∀ (m : List (Char × Nat)) (ts : List (Char × TrieNode Ty El)), RepMap b h m ts →
      (find m c = none ∧ find ts c = none) ∨
        ∃ a t, find m c = some a ∧ find ts c = some t ∧ Rep b h a t := by
  intro m
  induction m with
  | nil =>
    intro ts hr
    cases ts with
    | nil => exact Or.inl ⟨rfl, rfl⟩
    | cons e ts => rw [RepMap] at hr; exact hr.elim
  | cons e m ih =>
    intro ts hr
    cases ts with
    | nil => rw [RepMap] at hr; exact hr.elim
    | cons e2 ts =>
      obtain ⟨k, a⟩ := e
      obtain ⟨k2, t⟩ := e2
      rw [RepMap] at hr
      obtain ⟨h1, h2, h3⟩ := hr
      simp only at h1 h2
      subst h1
      simp only [find]
      by_cases hk : k = c
      · simp only [hk, if_true]
        exact Or.inr ⟨a, t, rfl, rfl, h2⟩
      · simp only [hk, if_false]
        exact ih ts h3

theorem RepMap_assign {b : Nat} {h : List (HNode Ty El)} (c : Char) {a : Nat}
    {t : TrieNode Ty El} (hat : Rep b h a t) :
    ∀ (m : List (Char × Nat)) (ts : List (Char × TrieNode Ty El)), RepMap b h m ts →
      RepMap b h (assign m c a) (assign ts c t) := by
  intro m
  induction m with
  | nil =>
    intro ts hr
    cases ts with
    | nil => simp only [assign, RepMap]; exact ⟨trivial, hat, trivial⟩
    | cons e ts => rw [RepMap] at hr; exact hr.elim
  | cons e m ih =>
    intro ts hr
    cases ts with
    | nil => rw [RepMap] at hr; exact hr.elim
    | cons e2 ts =>
      obtain ⟨k, a0⟩ := e
      obtain ⟨k2, t0⟩ := e2
      rw [RepMap] at hr
      obtain ⟨h1, h2, h3⟩ := hr
      simp only at h1 h2
      subst h1
      simp only [assign]
      by_cases hlt : c < k
      · simp only [hlt, if_true, RepMap]
        exact ⟨trivial, hat, trivial, h2, h3⟩
      · by_cases heq : c = k
        · subst heq
          simp only [lt_irrefl, if_false, if_true, RepMap]
          exact ⟨trivial, hat, h3⟩
        · simp only [hlt, heq, if_false, RepMap]
          exact ⟨trivial, h2, ih ts h3⟩

theorem RepMap_erase {b : Nat} {h : List (HNode Ty El)} (c : Char) :
    ∀ (m : List (Char × Nat)) (ts : List (Char × TrieNode Ty El)), RepMap b h m ts →
      RepMap b h (erase m c) (erase ts c) := by
  intro m
  induction m with
  | nil =>
    intro ts hr
    cases ts with
    | nil => simp only [erase, RepMap]
    | cons e ts => rw [RepMap] at hr; exact hr.elim
  | cons e m ih =>
    intro ts hr
    cases ts with
    | nil => rw [RepMap] at hr; exact hr.elim
    | cons e2 ts =>
      obtain ⟨k, a0⟩ := e
      obtain ⟨k2, t0⟩ := e2
      rw [RepMap] at hr
      obtain ⟨h1, h2, h3⟩ := hr
      simp only at h1 h2
      subst h1
      simp only [erase]
      by_cases hk : k = c
      · simp only [hk, if_true]
        exact ih ts h3
      · simp only [hk, if_false, RepMap]
        exact ⟨trivial, h2, ih ts h3⟩

theorem RepMap_length {b : Nat} {h : List (HNode Ty El)} :
    ∀ (m : List (Char × Nat)) (ts : List (Char × TrieNode Ty El)), RepMap b h m ts →
      m.length = ts.length := by
  intro m
  induction m with
  | nil =>
    intro ts hr
    cases ts with
    | nil => rfl
    | cons e ts => rw [RepMap] at hr; exact hr.elim
  | cons e m ih =>
    intro ts hr
    cases ts with
    | nil => rw [RepMap] at hr; exact hr.elim
    | cons e2 ts =>
      rw [RepMap] at hr
      simp only [List.length_cons, ih ts hr.2.2]

/-- The walk over the heap follows the walk over the tree. -/
theorem HWalk_sim {b : Nat} {h : List (HNode Ty El)} (key : List Char) :
    ∀ (t : TrieNode Ty El) (a : Nat), Rep b h a t →
      (walk t key = none → HWalk h a key = .ok none) ∧
        ∀ m, walk t key = some m → ∃ a2, HWalk h a key = .ok (some a2) ∧ Rep b h a2 m := by
  induction key with
  | nil =>
    intro t a hr
    refine ⟨fun hw => by simp [walk] at hw, fun m hw => ?_⟩
    simp only [walk, Option.some.injEq] at hw
    subst hw
    exact ⟨a, rfl, hr⟩
  | cons c rest ih =>
    intro t a hr
    obtain ⟨-, n, hn, -, hm⟩ := Rep_iff.1 hr
    simp only [walk, HWalk, hn]
    rcases RepMap_find c _ _ hm with ⟨h1, h2⟩ | ⟨a2, t2, h1, h2, h3⟩
    · simp [h1, h2]
    · simp only [h1, h2]
      exact ih t2 a2 h3

/-- The method `Get` over a heap that holds the trie gives what `Get` gives on the trie. -/
theorem HGet_sim [DecidableEq Ty] {b : Nat} {h : List (HNode Ty El)} (t : Trie Ty El)
    (root_ : Option Nat)
    (hr : RepTrie b h root_ t) (U : Ty) (key : List Char) :
    HGet h root_ U key = .ok (t.Get U key) := by
  unfold RepTrie at hr
  unfold HGet Trie.Get
  cases root_ with
  | none =>
    cases hroot : t.root_ with
    | none => rfl
    | some r => rw [hroot] at hr; exact hr.elim
  | some a =>
    cases hroot : t.root_ with
    | none => rw [hroot] at hr; exact hr.elim
    | some r =>
      rw [hroot] at hr
      simp only at hr ⊢
      obtain ⟨h1, h2⟩ := HWalk_sim key r a hr
      cases hw : walk r key with
      | none => simp [h1 hw]
      | some m =>
        obtain ⟨a2, h3, h4⟩ := h2 m hw
        obtain ⟨-, n, hn, hv, -⟩ := Rep_iff.1 h4
        simp only [h3, hn, hv, TrieNode.is_value_node_, dynamic_cast]
        cases hval : m.value_ with
        | none => rfl
        | some p => simp [castTo]

theorem alloc_set_below (h : List (HNode Ty El)) (x y : HNode Ty El) {b cur : Nat}
    (hb : b ≤ cur) (hcur : cur < h.length) :
    (∀ a, a < b → ((h ++ [x]).set cur y)[a]? = h[a]?) ∧
      ((h ++ [x]).set cur y)[cur]? = some y ∧
      ((h ++ [x]).set cur y)[h.length]? = some x ∧
      ((h ++ [x]).set cur y).length = h.length + 1 := by
  refine ⟨fun a ha => ?_, ?_, ?_, by simp⟩
  · rw [getElem?_set_other _ _ _ _ (by omega), List.getElem?_append_left (by omega)]
  · rw [List.getElem?_set_self (by simp; omega)]
  · rw [getElem?_set_other _ _ _ _ (by omega)]
    simp

theorem lt_length_of_getElem? {h : List (HNode Ty El)} {a : Nat} {n : HNode Ty El}
    (hn : h[a]? = some n) : a < h.length := by
  by_contra hlt
  rw [List.getElem?_eq_none (by omega)] at hn
  cases hn

/-- The path part of `Put` over the heap builds, at `cur_node`, the tree that the path part of
`Put` returns. -/
theorem HPut_path_sim (v : Sigma El) (key : List Char) :
    ∀ (h : List (HNode Ty El)) (cur b : Nat) (n0 : HNode Ty El) (t : TrieNode Ty El),
      b ≤ cur → h[cur]? = some n0 → n0.value_ = t.value_ →
      RepMap b h n0.children_ t.children_ → key ≠ [] →
      ∃ t2, Put_path t v key = .ok t2 ∧ (HPut_path v key h cur).2 = .ok () ∧
        Rep (HPut_path v key h cur).1.length (HPut_path v key h cur).1 cur t2 := by
  induction key with
  | nil => intro h cur b n0 t _ _ _ _ hk; exact absurd rfl hk
  | cons c rest ih =>
    intro h cur b n0 t hb hn hv hm _
    have hcur := lt_length_of_getElem? hn
    cases rest with
    | nil =>
      rcases RepMap_find c _ _ hm with ⟨h1, h2⟩ | ⟨a, tc, h1, h2, h3⟩
      · obtain ⟨f1, f2, f3, f4⟩ := alloc_set_below h ⟨[], some v⟩
          ⟨assign n0.children_ c h.length, n0.value_⟩ hb hcur
        refine ⟨.mk (assign t.children_ c (.mk [] (some v))) t.value_,
          by simp only [Put_path, h2], by simp only [HPut_path, hn, h1], ?_⟩
        simp only [HPut_path, hn, h1]
        refine Rep_iff.2 ⟨by omega, _, f2, hv, ?_⟩
        simp only [children_mk]
        refine RepMap_assign c ?_ _ _ (RepMap_mono (by omega) f1 _ _ hm)
        refine Rep_iff.2 ⟨by omega, _, f3, rfl, ?_⟩
        simp only [children_mk, RepMap]
      · obtain ⟨ha, child, hchild, hcv, hcm⟩ := Rep_iff.1 h3
        obtain ⟨f1, f2, f3, f4⟩ := alloc_set_below h ⟨child.children_, some v⟩
          ⟨assign n0.children_ c h.length, n0.value_⟩ hb hcur
        refine ⟨.mk (assign t.children_ c (.mk tc.children_ (some v))) t.value_,
          by simp only [Put_path, h2, Clone_eq], by simp only [HPut_path, hn, h1, hchild], ?_⟩
        simp only [HPut_path, hn, h1, hchild]
        refine Rep_iff.2 ⟨by omega, _, f2, hv, ?_⟩
        simp only [children_mk]
        refine RepMap_assign c ?_ _ _ (RepMap_mono (by omega) f1 _ _ hm)
        refine Rep_iff.2 ⟨by omega, _, f3, rfl, ?_⟩
        simp only [children_mk, Clone_eq]
        exact RepMap_mono (by omega) f1 _ _ hcm
    | cons c2 rest2 =>
      rcases RepMap_find c _ _ hm with ⟨h1, h2⟩ | ⟨a, tc, h1, h2, h3⟩
      · obtain ⟨f1, f2, f3, f4⟩ := alloc_set_below h ⟨[], none⟩
          ⟨assign n0.children_ c h.length, n0.value_⟩ hb hcur
        obtain ⟨t2, g1, g2, g3⟩ := ih _ h.length b ⟨[], none⟩ (TrieNode.mk [] none)
          (by omega) f3 rfl (by simp only [children_mk, RepMap]) (by simp)
        have fr := HPut_path_frame v (c2 :: rest2)
          ((h ++ [(⟨[], none⟩ : HNode Ty El)]).set cur
            ⟨assign n0.children_ c h.length, n0.value_⟩) h.length
        refine ⟨.mk (assign t.children_ c t2) t.value_, by simp only [Put_path, h2, g1],
          by simp only [HPut_path, hn, h1, g2], ?_⟩
        simp only [HPut_path, hn, h1]
        refine Rep_iff.2 ⟨by omega, _, (fr.2 cur (by omega) (by omega)).trans f2, hv, ?_⟩
        simp only [children_mk]
        refine RepMap_assign c g3 _ _ (RepMap_mono (by omega) ?_ _ _ hm)
        intro a ha
        rw [fr.2 a (by omega) (by omega), f1 a ha]
      · obtain ⟨ha, child, hchild, hcv, hcm⟩ := Rep_iff.1 h3
        obtain ⟨f1, f2, f3, f4⟩ := alloc_set_below h child
          ⟨assign n0.children_ c h.length, n0.value_⟩ hb hcur
        obtain ⟨t2, g1, g2, g3⟩ := ih _ h.length b child tc
          (by omega) f3 hcv (RepMap_mono (Nat.le_refl _) f1 _ _ hcm) (by simp)
        have fr := HPut_path_frame v (c2 :: rest2)
          ((h ++ [child]).set cur ⟨assign n0.children_ c h.length, n0.value_⟩) h.length
        refine ⟨.mk (assign t.children_ c t2) t.value_,
          by simp only [Put_path, h2, Clone_eq, g1],
          by simp only [HPut_path, hn, h1, hchild, g2], ?_⟩
        simp only [HPut_path, hn, h1, hchild]
        refine Rep_iff.2 ⟨by omega, _, (fr.2 cur (by omega) (by omega)).trans f2, hv, ?_⟩
        simp only [children_mk]
        refine RepMap_assign c g3 _ _ (RepMap_mono (by omega) ?_ _ _ hm)
        intro a ha
        rw [fr.2 a (by omega) (by omega), f1 a ha]

theorem append_below (h : List (HNode Ty El)) (x : HNode Ty El) :
    (∀ a, a < h.length → (h ++ [x])[a]? = h[a]?) ∧ (h ++ [x])[h.length]? = some x ∧
      (h ++ [x]).length = h.length + 1 := by
  refine ⟨fun a ha => List.getElem?_append_left ha, by simp, by simp⟩

/-- Outside the empty key on the empty trie, `Put` over a heap that holds the trie returns
without a fault and leaves a heap that holds the trie `Put` returns. -/
theorem HPut_sim (h : List (HNode Ty El)) (root_ : Option Nat) (t : Trie Ty El)
    (key : List Char) (v : Sigma El) (hr : RepTrie h.length h root_ t)
    (hne : t.root_ ≠ none ∨ key ≠ []) :
    ∃ t2 r2, t.Put key v = .ok t2 ∧ (HPut h root_ key v).2 = .ok r2 ∧
      RepTrie (HPut h root_ key v).1.length (HPut h root_ key v).1 r2 t2 := by
  unfold RepTrie at hr
  cases root_ with
  | none =>
    cases hroot : t.root_ with
    | some r => rw [hroot] at hr; exact hr.elim
    | none =>
      have hk : key ≠ [] := by
        rcases hne with h1 | h1
        · exact absurd hroot h1
        · exact h1
      have hk2 : key.isEmpty = false := by
        cases key with
        | nil => exact absurd rfl hk
        | cons a l => rfl
      obtain ⟨f1, f2, f3⟩ := append_below h (⟨[], none⟩ : HNode Ty El)
      obtain ⟨t2, g1, g2, g3⟩ := HPut_path_sim v key (h ++ [⟨[], none⟩]) h.length h.length
        ⟨[], none⟩ (TrieNode.mk [] none) (Nat.le_refl _) f2 rfl
        (by simp only [children_mk, RepMap]) hk
      refine ⟨⟨some t2⟩, some h.length, ?_, ?_, ?_⟩
      · simp only [Trie.Put, hroot, hk2, Bool.false_eq_true, if_false, g1]
      · simp only [HPut, hk2, Bool.false_eq_true, if_false]
        cases hres : HPut_path v key (h ++ [⟨[], none⟩]) h.length with
        | mk h2 res =>
          rw [hres] at g2
          simp only at g2
          subst g2
          rfl
      · simp only [HPut, hk2, Bool.false_eq_true, if_false]
        cases hres : HPut_path v key (h ++ [⟨[], none⟩]) h.length with
        | mk h2 res =>
          rw [hres] at g2 g3
          simp only at g2 g3
          subst g2
          exact g3
  | some a =>
    cases hroot : t.root_ with
    | none => rw [hroot] at hr; exact hr.elim
    | some r =>
      rw [hroot] at hr
      simp only at hr
      obtain ⟨ha, root, hobj, hv, hm⟩ := Rep_iff.1 hr
      cases key with
      | nil =>
        obtain ⟨f1, f2, f3⟩ := append_below h (⟨root.children_, some v⟩ : HNode Ty El)
        refine ⟨⟨some (.mk r.children_ (some v))⟩, some h.length, ?_, ?_, ?_⟩
        · simp only [Trie.Put, hroot, List.isEmpty_nil, if_true, Clone_eq]
        · simp only [HPut, hobj, List.isEmpty_nil, if_true]
        · simp only [HPut, hobj, List.isEmpty_nil, if_true, RepTrie]
          refine Rep_iff.2 ⟨by omega, _, f2, rfl, ?_⟩
          exact RepMap_mono (by omega) f1 _ _ hm
      | cons c rest =>
        obtain ⟨f1, f2, f3⟩ := append_below h root
        obtain ⟨t2, g1, g2, g3⟩ := HPut_path_sim v (c :: rest) (h ++ [root]) h.length h.length
          root r (Nat.le_refl _) f2 hv (RepMap_mono (Nat.le_refl _) f1 _ _ hm) (by simp)
        refine ⟨⟨some t2⟩, some h.length, ?_, ?_, ?_⟩
        · simp only [Trie.Put, hroot, List.isEmpty_cons, Bool.false_eq_true, if_false,
            Clone_eq, g1]
        · simp only [HPut, hobj, List.isEmpty_cons, Bool.false_eq_true, if_false]
          cases hres : HPut_path v (c :: rest) (h ++ [root]) h.length with
          | mk h2 res =>
            rw [hres] at g2
            simp only at g2
            subst g2
            rfl
        · simp only [HPut, hobj, List.isEmpty_cons, Bool.false_eq_true, if_false]
          cases hres : HPut_path v (c :: rest) (h ++ [root]) h.length with
          | mk h2 res =>
            rw [hres] at g2 g3
            simp only at g2 g3
            subst g2
            exact g3

theorem alloc_set_fresh (h : List (HNode Ty El)) (x y : HNode Ty El) :
    (∀ a, a < h.length → ((h ++ [x]).set h.length y)[a]? = h[a]?) ∧
      ((h ++ [x]).set h.length y)[h.length]? = some y ∧
      ((h ++ [x]).set h.length y).length = h.length + 1 := by
  refine ⟨fun a ha => ?_, ?_, by simp⟩
  · rw [getElem?_set_other _ _ _ _ (by omega), List.getElem?_append_left ha]
  · rw [List.getElem?_set_self (by simp)]

theorem RepMap_isEmpty {b : Nat} {h : List (HNode Ty El)} {m : List (Char × Nat)}
    {ts : List (Char × TrieNode Ty El)} (hm : RepMap b h m ts) : m.isEmpty = ts.isEmpty := by
  have := RepMap_length m ts hm
  cases m with
  | nil =>
    cases ts with
    | nil => rfl
    | cons e l => simp at this
  | cons e l =>
    cases ts with
    | nil => simp at this
    | cons e2 l2 => rfl

/-- Along a path that exists, `Remove_Function` over a heap that holds the tree returns without
a fault and leaves a heap that holds the tree `Remove_Function` returns. -/
theorem HRemove_Function_sim (key : List Char) :
    ∀ (h : List (HNode Ty El)) (cur b : Nat) (t m : TrieNode Ty El),
      Rep b h cur t → b ≤ h.length → walk t key = some m →
      ∃ ro r, Remove_Function key t = .ok ro ∧ (HRemove_Function key h cur).2 = .ok r ∧
        RepTrie (HRemove_Function key h cur).1.length (HRemove_Function key h cur).1 r ⟨ro⟩ := by
  induction key with
  | nil =>
    intro h cur b t m hr hb _
    obtain ⟨hcur, n, hn, hv, hm⟩ := Rep_iff.1 hr
    have he := RepMap_isEmpty hm
    cases hemp : t.children_.isEmpty with
    | true =>
      refine ⟨none, none, by simp only [Remove_Function, hemp, if_true], ?_, ?_⟩
      · simp only [HRemove_Function, hn, he, hemp, if_true]
      · simp only [HRemove_Function, hn, he, hemp, if_true, RepTrie]
    | false =>
      obtain ⟨f1, f2, f3⟩ := append_below h (⟨n.children_, none⟩ : HNode Ty El)
      refine ⟨some (.mk t.children_ none), some h.length,
        by simp only [Remove_Function, hemp, Bool.false_eq_true, if_false], ?_, ?_⟩
      · simp only [HRemove_Function, hn, he, hemp, Bool.false_eq_true, if_false]
      · simp only [HRemove_Function, hn, he, hemp, Bool.false_eq_true, if_false, RepTrie]
        refine Rep_iff.2 ⟨by omega, _, f2, rfl, ?_⟩
        exact RepMap_mono (by omega) (fun a ha => f1 a (by omega)) _ _ hm
  | cons c rest ih =>
    intro h cur b t m hr hb hw
    obtain ⟨hcur, n, hn, hv, hm⟩ := Rep_iff.1 hr
    obtain ⟨tc, hft, hw2⟩ := walk_cons_some hw
    rcases RepMap_find c _ _ hm with ⟨-, h2⟩ | ⟨a, tc2, h1, h2, h3⟩
    · rw [hft] at h2; cases h2
    · rw [hft] at h2
      cases h2
      obtain ⟨ro1, r1, g1, g2, g3⟩ := ih h a b tc m h3 hb hw2
      have fr := HRemove_Function_frame rest h a
      have hlen := RepMap_length _ _ hm
      have htree := Remove_Function_cons hft g1
      cases hres : HRemove_Function rest h a with
      | mk h1' res =>
        rw [hres] at g2 g3 fr
        simp only at g2 g3 fr
        subst g2
        have hn1 : h1'[cur]? = some n := by rw [fr.2 cur (by omega), hn]
        have hbelow : ∀ x, x < b → h1'[x]? = h[x]? := fun x hx => fr.2 x (by omega)
        have hle : h.length ≤ h1'.length := fr.1
        unfold RepTrie at g3
        cases r1 with
        | some a2 =>
          cases ro1 with
          | none => exact g3.elim
          | some t2 =>
            simp only at g3 htree
            obtain ⟨f1, f2, f3⟩ := alloc_set_fresh h1' n
              ⟨assign n.children_ c a2, n.value_⟩
            refine ⟨_, some h1'.length, htree, ?_, ?_⟩
            · simp only [HRemove_Function, hn, h1, hres, hn1, Option.isSome_some,
                Bool.true_or, if_true]
            · simp only [HRemove_Function, hn, h1, hres, hn1, Option.isSome_some,
                Bool.true_or, if_true, RepTrie]
              refine Rep_iff.2 ⟨by omega, _, f2, hv, ?_⟩
              simp only [children_mk]
              refine RepMap_assign c (Rep_mono (by omega) f1 _ _ g3) _ _
                (RepMap_mono (by omega) ?_ _ _ hm)
              intro x hx
              rw [f1 x (by omega), hbelow x hx]
        | none =>
          cases ro1 with
          | some t2 => exact g3.elim
          | none =>
            simp only at htree
            have hval : n.value_.isSome = t.is_value_node_ := by
              simp only [TrieNode.is_value_node_, hv]
            by_cases hcond : (t.is_value_node_ || decide (t.children_.length > 1)) = true
            · obtain ⟨f1, f2, f3⟩ := alloc_set_fresh h1' n
                ⟨erase n.children_ c, n.value_⟩
              rw [if_pos hcond] at htree
              refine ⟨_, some h1'.length, htree, ?_, ?_⟩
              · simp only [HRemove_Function, hn, h1, hres, hn1, Option.isSome_none,
                  Bool.false_or, hval, hlen, hcond, if_true]
              · simp only [HRemove_Function, hn, h1, hres, hn1, Option.isSome_none,
                  Bool.false_or, hval, hlen, hcond, if_true, RepTrie]
                refine Rep_iff.2 ⟨by omega, _, f2, hv, ?_⟩
                simp only [children_mk]
                refine RepMap_erase c _ _ (RepMap_mono (by omega) ?_ _ _ hm)
                intro x hx
                rw [f1 x (by omega), hbelow x hx]
            · rw [if_neg hcond] at htree
              refine ⟨none, none, htree, ?_, ?_⟩
              · simp only [HRemove_Function, hn, h1, hres, hn1, Option.isSome_none,
                  Bool.false_or, hval, hlen, hcond, Bool.false_eq_true, if_false]
              · simp only [HRemove_Function, hn, h1, hres, hn1, Option.isSome_none,
                  Bool.false_or, hval, hlen, hcond, Bool.false_eq_true, if_false, RepTrie]

/-- The method `Remove` over a heap that holds the trie returns without a fault and leaves a
heap that holds the trie `Remove` returns. -/
theorem HRemove_sim (h : List (HNode Ty El)) (root_ : Option Nat) (t : Trie Ty El)
    (key : List Char) (hr : RepTrie h.length h root_ t) :
    ∃ t2 r2, t.Remove key = .ok t2 ∧ (HRemove h root_ key).2 = .ok r2 ∧
      RepTrie (HRemove h root_ key).1.length (HRemove h root_ key).1 r2 t2 := by
  have hr0 := hr
  unfold RepTrie at hr
  cases root_ with
  | none =>
    cases hroot : t.root_ with
    | some r => rw [hroot] at hr; exact hr.elim
    | none =>
      refine ⟨t, none, by simp only [Trie.Remove, hroot], by simp only [HRemove], ?_⟩
      simp only [HRemove]
      exact hr0
  | some a =>
    cases hroot : t.root_ with
    | none => rw [hroot] at hr; exact hr.elim
    | some r =>
      rw [hroot] at hr
      simp only at hr
      obtain ⟨ha, root, hobj, hv, hm⟩ := Rep_iff.1 hr
      have hval : root.value_.isSome = r.is_value_node_ := by
        simp only [TrieNode.is_value_node_, hv]
      have he := RepMap_isEmpty hm
      cases key with
      | nil =>
        cases hvn : r.is_value_node_ with
        | false =>
          refine ⟨t, some a, ?_, ?_, ?_⟩
          · simp only [Trie.Remove, hroot, List.isEmpty_nil, if_true, hvn, Bool.false_eq_true,
              if_false]
          · simp only [HRemove, List.isEmpty_nil, if_true, hobj, hval, hvn,
              Bool.false_eq_true, if_false]
          · simp only [HRemove, List.isEmpty_nil, if_true, hobj, hval, hvn,
              Bool.false_eq_true, if_false]
            exact hr0
        | true =>
          cases hemp : r.children_.isEmpty with
          | true =>
            refine ⟨⟨none⟩, none, ?_, ?_, ?_⟩
            · simp only [Trie.Remove, hroot, List.isEmpty_nil, if_true, hvn, hemp]
            · simp only [HRemove, List.isEmpty_nil, if_true, hobj, hval, hvn, he, hemp]
            · simp only [HRemove, List.isEmpty_nil, if_true, hobj, hval, hvn, he, hemp,
                RepTrie]
          | false =>
            obtain ⟨f1, f2, f3⟩ := append_below h (⟨root.children_, none⟩ : HNode Ty El)
            refine ⟨⟨some (.mk r.children_ none)⟩, some h.length, ?_, ?_, ?_⟩
            · simp only [Trie.Remove, hroot, List.isEmpty_nil, if_true, hvn, hemp,
                Bool.false_eq_true, if_false]
            · simp only [HRemove, List.isEmpty_nil, if_true, hobj, hval, hvn, he, hemp,
                Bool.false_eq_true, if_false]
            · simp only [HRemove, List.isEmpty_nil, if_true, hobj, hval, hvn, he, hemp,
                Bool.false_eq_true, if_false, RepTrie]
              refine Rep_iff.2 ⟨by omega, _, f2, rfl, ?_⟩
              exact RepMap_mono (by omega) f1 _ _ hm
      | cons c rest =>
        obtain ⟨w1, w2⟩ := HWalk_sim (c :: rest) r a hr
        cases hw : walk r (c :: rest) with
        | none =>
          refine ⟨t, some a, ?_, ?_, ?_⟩
          · simp only [Trie.Remove, hroot, List.isEmpty_cons, Bool.false_eq_true, if_false, hw]
          · simp only [HRemove, List.isEmpty_cons, Bool.false_eq_true, if_false, w1 hw]
          · simp only [HRemove, List.isEmpty_cons, Bool.false_eq_true, if_false, w1 hw]
            exact hr0
        | some m =>
          obtain ⟨a2, w3, w4⟩ := w2 m hw
          obtain ⟨-, obj, hobj2, hv2, -⟩ := Rep_iff.1 w4
          have hval2 : obj.value_.isSome = m.is_value_node_ := by
            simp only [TrieNode.is_value_node_, hv2]
          cases hvn : m.is_value_node_ with
          | false =>
            refine ⟨t, some a, ?_, ?_, ?_⟩
            · simp only [Trie.Remove, hroot, List.isEmpty_cons, Bool.false_eq_true, if_false,
                hw, hvn, Bool.not_false, if_true]
            · simp only [HRemove, List.isEmpty_cons, Bool.false_eq_true, if_false, w3, hobj2,
                hval2, hvn, Bool.not_false, if_true]
            · simp only [HRemove, List.isEmpty_cons, Bool.false_eq_true, if_false, w3, hobj2,
                hval2, hvn, Bool.not_false, if_true]
              exact hr0
          | true =>
            obtain ⟨ro, r2, g1, g2, g3⟩ := HRemove_Function_sim (c :: rest) h a h.length r m hr
              (Nat.le_refl _) hw
            refine ⟨⟨ro⟩, r2, ?_, ?_, ?_⟩
            · simp only [Trie.Remove, hroot, List.isEmpty_cons, Bool.false_eq_true, if_false,
                hw, hvn, Bool.not_true, g1]
            · simp only [HRemove, List.isEmpty_cons, Bool.false_eq_true, if_false, w3, hobj2,
                hval2, hvn, Bool.not_true, g2]
            · simp only [HRemove, List.isEmpty_cons, Bool.false_eq_true, if_false, w3, hobj2,
                hval2, hvn, Bool.not_true]
              exact g3

theorem RepTrie_mono {h h2 : List (HNode Ty El)} (he : Extends h h2) (root_ : Option Nat)
    (t : Trie Ty El) (hr : RepTrie h.length h root_ t) : RepTrie h2.length h2 root_ t := by
  unfold RepTrie at hr ⊢
  cases root_ with
  | none =>
    cases hroot : t.root_ with
    | none => trivial
    | some r => rw [hroot] at hr; exact hr.elim
  | some a =>
    cases hroot : t.root_ with
    | none => rw [hroot] at hr; exact hr.elim
    | some r =>
      rw [hroot] at hr
      exact Rep_mono he.1 he.2 r a hr

/-! ## The properties, continued -/

/-- C12 (`Put` of the empty key into the empty trie), at its only input: `Put` builds the root
value node, does not return and reads `key.back()` of the empty key, so it returns no trie
whose root is the single value node holding the value. -/
theorem Put_empty_key_empty_trie_no_single_node :
    (Trie.empty : Trie ValueType ValueType.Val).Put [] one = .error .back_of_empty_key ∧
      ¬ ∃ t, (Trie.empty : Trie ValueType ValueType.Val).Put [] one = .ok t ∧
        t.root_ = some (.mk [] (some one)) := by
  refine ⟨rfl, ?_⟩
  rintro ⟨t, h, -⟩
  rw [Put_empty_trie_empty_key] at h
  cases h

/-- C13 (`Put` is total and reads no symbol outside the key), at the empty trie and the empty
key: the key has no symbol, `Put` reaches `key.back()` all the same and returns no trie. -/
theorem Put_reads_back_of_empty_key :
    ([] : List Char).length = 0 ∧
      (Trie.empty : Trie ValueType ValueType.Val).Put [] one = .error .back_of_empty_key ∧
      ¬ ∃ t, (Trie.empty : Trie ValueType ValueType.Val).Put [] one = .ok t := by
  refine ⟨rfl, rfl, ?_⟩
  rintro ⟨t, h⟩
  rw [Put_empty_trie_empty_key] at h
  cases h

/-- The whole-key `Put` of a non-empty key into the empty trie returns a trie of `|key| + 1`
nodes; the node reached by the first `i` symbols, for `i < |key|`, is not value-bearing and has
exactly one child, under the next symbol, which is the node reached by the first `i + 1` symbols;
the node reached by the key is value-bearing, holds the value and has no children. -/
theorem Put_empty_trie_chain (key : List Char) (v : Sigma El) (hk : key ≠ []) :
    ∃ t : Trie Ty El, (Trie.empty : Trie Ty El).Put key v = .ok t ∧
      t.count = key.length + 1 ∧
      (∀ i (hi : i < key.length), ∃ n child, t.node (key.take i) = some n ∧
        n.is_value_node_ = false ∧ n.children_ = [(key[i], child)] ∧
        t.node (key.take (i + 1)) = some child) ∧
      ∃ n, t.node key = some n ∧ n.value_ = some v ∧ n.children_ = [] := by
  have hk2 : key.isEmpty = false := by
    cases key with
    | nil => exact absurd rfl hk
    | cons a l => rfl
  refine ⟨⟨some (chain v key)⟩, ?_, ?_, ?_, ?_⟩
  · simp only [Trie.Put, Trie.empty, hk2, Bool.false_eq_true, if_false, Put_path_chain v key hk]
  · simp only [Trie.count, count_chain]
  · intro i hi
    refine ⟨chain v (key.drop i), chain v (key.drop (i + 1)), ?_, ?_, ?_, ?_⟩
    · exact walk_chain v key i (Nat.le_of_lt hi)
    · rw [List.drop_eq_getElem_cons hi]; rfl
    · rw [List.drop_eq_getElem_cons hi]; rfl
    · exact walk_chain v key (i + 1) hi
  · refine ⟨chain v [], ?_, rfl, rfl⟩
    have : walk (chain v key : TrieNode Ty El) (key.take key.length) = _ :=
      walk_chain v key key.length (Nat.le_refl _)
    simpa [Trie.node] using this

/-- C15: on a trie with a root, `Remove` of the empty key returns a plain root with the same
children map when the root is value-bearing and has a child, the empty trie when the root is
value-bearing and childless, and the receiver when the root is not value-bearing. -/
theorem Remove_empty_key (t : Trie Ty El) (root : TrieNode Ty El) (hr : t.root_ = some root) :
    (root.is_value_node_ = true → root.children_ ≠ [] →
        t.Remove [] = .ok ⟨some (.mk root.children_ none)⟩) ∧
      (root.is_value_node_ = true → root.children_ = [] → t.Remove [] = .ok Trie.empty) ∧
      (root.is_value_node_ = false → t.Remove [] = .ok t) := by
  refine ⟨?_, ?_, ?_⟩
  · intro hv hc
    have he : root.children_.isEmpty = false := by
      cases h : root.children_ with
      | nil => exact absurd h hc
      | cons e m => rfl
    simp [Trie.Remove, hr, hv, he]
  · intro hv hc
    simp [Trie.Remove, hr, hv, hc, Trie.empty]
  · intro hv
    simp [Trie.Remove, hr, hv]

/-- C16: when the walk of `Remove` found the whole path of a non-empty key, ending in a
value-bearing node, the call `Remove_Function(key, 0, root)` returns without dereferencing a
missing entry, `Remove` returns what it returned, and at every index `i < |key|` the node the
recursion is at, reached by the first `i` symbols, has a child under `key[i]`. -/
theorem Remove_Function_finds_children (t : Trie Ty El) (root n : TrieNode Ty El)
    (key : List Char) (hk : key ≠ []) (hr : t.root_ = some root)
    (hw : walk root key = some n) (hv : n.is_value_node_ = true) :
    (∃ r, Remove_Function key root = .ok r ∧ t.Remove key = .ok ⟨r⟩) ∧
      ∀ i (hi : i < key.length), ∃ m child,
        walk root (key.take i) = some m ∧ find m.children_ key[i] = some child := by
  refine ⟨?_, walk_prefix_find key root n hw⟩
  obtain ⟨r, h1, -⟩ := Remove_Function_spec key root n hw
  refine ⟨r, h1, ?_⟩
  have hk2 : key.isEmpty = false := by
    cases key with
    | nil => exact absurd rfl hk
    | cons a l => rfl
  simp [Trie.Remove, hr, hk2, hw, hv, h1]

/-- C17 (a later `Put` under the same key replaces an earlier one), at the empty trie and the
empty key: each of the `Put`s on the empty trie reads `key.back()` of the empty key, so there
are no tries to compare. -/
theorem Put_twice_empty_key_empty_trie :
    (Trie.empty : Trie ValueType ValueType.Val).Put [] two = .error .back_of_empty_key ∧
      ¬ ∃ t1 t2, (Trie.empty : Trie ValueType ValueType.Val).Put [] one = .ok t1 ∧
        t1.Put [] two = .ok t2 ∧
        (Trie.empty : Trie ValueType ValueType.Val).Put [] two = .ok t2 := by
  refine ⟨rfl, ?_⟩
  rintro ⟨t1, t2, h, -, -⟩
  rw [Put_empty_trie_empty_key] at h
  cases h

/-- C18 (`Put`s under distinct keys commute), at the empty trie with the keys `""` and `"a"`:
`Put("a")` followed by `Put("")` returns a trie, while in the other order the first `Put`
reads `key.back()` of the empty key and returns none. -/
theorem Put_Put_empty_key_first_empty_trie :
    (∃ t2 t3, (Trie.empty : Trie ValueType ValueType.Val).Put ['a'] two = .ok t2 ∧
        t2.Put [] one = .ok t3) ∧
      ¬ ∃ t1 t3, (Trie.empty : Trie ValueType ValueType.Val).Put [] one = .ok t1 ∧
        t1.Put ['a'] two = .ok t3 := by
  refine ⟨⟨_, _, rfl, rfl⟩, ?_⟩
  rintro ⟨t1, t3, h, -⟩
  rw [Put_empty_trie_empty_key] at h
  cases h

/-- C11: over a heap of node objects, `Put` and `Remove` leave every object that existed before
the call unchanged at its address (all they write are objects they allocated, also when `Put`
stops at a fault); so a trie the heap held at the root of the receiver is still held there,
node by node, after the call, and when the heap is closed and the root is an object of it,
`Get<U>(key2)` on the receiver gives the same result after the call as before. -/
theorem Put_Remove_persistent [DecidableEq Ty] (h : List (HNode Ty El)) (root_ : Option Nat)
    (key key2 : List Char) (value : Sigma El) (U : Ty) (hc : Closed h)
    (hr : ∀ r, root_ = some r → r < h.length) :
    Extends h (HPut h root_ key value).1 ∧ Extends h (HRemove h root_ key).1 ∧
      (∀ t : Trie Ty El, RepTrie h.length h root_ t →
        RepTrie (HPut h root_ key value).1.length (HPut h root_ key value).1 root_ t ∧
        RepTrie (HRemove h root_ key).1.length (HRemove h root_ key).1 root_ t) ∧
      HGet (HPut h root_ key value).1 root_ U key2 = HGet h root_ U key2 ∧
      HGet (HRemove h root_ key).1 root_ U key2 = HGet h root_ U key2 :=
  ⟨HPut_frame h root_ key value, HRemove_frame h root_ key,
    fun t ht => ⟨RepTrie_mono (HPut_frame h root_ key value) root_ t ht,
      RepTrie_mono (HRemove_frame h root_ key) root_ t ht⟩,
    HGet_stable (HPut_frame h root_ key value) hc root_ hr U key2,
    HGet_stable (HRemove_frame h root_ key) hc root_ hr U key2⟩

theorem exampleHeap_holds_exampleTrie :
    RepTrie exampleHeap.length exampleHeap (some 2) exampleTrie := by
  simp [RepTrie, exampleTrie, exampleHeap, Rep, RepMap]

theorem Put_Remove_persistent_witness :
    (Closed exampleHeap ∧ RepTrie exampleHeap.length exampleHeap (some 2) exampleTrie) ∧
      Extends exampleHeap (HPut exampleHeap (some 2) ['a'] two).1 ∧
      Extends exampleHeap (HRemove exampleHeap (some 2) ['a']).1 ∧
      (∀ t : Trie ValueType ValueType.Val, RepTrie exampleHeap.length exampleHeap (some 2) t →
        RepTrie (HPut exampleHeap (some 2) ['a'] two).1.length
          (HPut exampleHeap (some 2) ['a'] two).1 (some 2) t ∧
        RepTrie (HRemove exampleHeap (some 2) ['a']).1.length
          (HRemove exampleHeap (some 2) ['a']).1 (some 2) t) ∧
      HGet (HPut exampleHeap (some 2) ['a'] two).1 (some 2) .uint32_t ['a']
        = HGet exampleHeap (some 2) .uint32_t ['a'] ∧
      HGet (HRemove exampleHeap (some 2) ['a']).1 (some 2) .uint32_t ['a']
        = HGet exampleHeap (some 2) .uint32_t ['a'] :=
  have hc : Closed exampleHeap := by
    unfold Closed exampleHeap
    decide
  ⟨⟨hc, exampleHeap_holds_exampleTrie⟩,
    Put_Remove_persistent exampleHeap (some 2) ['a'] ['a'] two .uint32_t hc
      (by intro r hr; cases hr; decide)⟩

theorem Remove_empty_key_witness :
    (Trie.mk (some valueRoot)).root_ = some valueRoot ∧
      (valueRoot.is_value_node_ = true → valueRoot.children_ ≠ [] →
        (Trie.mk (some valueRoot)).Remove [] = .ok ⟨some (.mk valueRoot.children_ none)⟩) ∧
      (valueRoot.is_value_node_ = true → valueRoot.children_ = [] →
        (Trie.mk (some valueRoot)).Remove [] = .ok Trie.empty) ∧
      (valueRoot.is_value_node_ = false →
        (Trie.mk (some valueRoot)).Remove [] = .ok (Trie.mk (some valueRoot))) :=
  ⟨rfl, Remove_empty_key (Trie.mk (some valueRoot)) valueRoot rfl⟩

theorem Remove_Function_finds_children_witness :
    (['a', 'b'] ≠ [] ∧ exampleTrie.root_ = some exampleRoot ∧
        walk exampleRoot ['a', 'b'] = some (.mk [] (some two)) ∧
        (TrieNode.mk [] (some two) : TrieNode ValueType ValueType.Val).is_value_node_ = true) ∧
      (∃ r, Remove_Function ['a', 'b'] exampleRoot = .ok r ∧
        exampleTrie.Remove ['a', 'b'] = .ok ⟨r⟩) ∧
      ∀ i (hi : i < ['a', 'b'].length), ∃ m child,
        walk exampleRoot (['a', 'b'].take i) = some m ∧
          find m.children_ ['a', 'b'][i] = some child :=
  ⟨⟨by decide, rfl, rfl, rfl⟩,
    Remove_Function_finds_children exampleTrie exampleRoot (.mk [] (some two)) ['a', 'b']
      (by decide) rfl rfl rfl⟩

/-! ## The `int32_t` length -/

theorem int32_t_of_lt {n : Nat} (h : n < 2147483648) : int32_t n = (n : Int) := by
  unfold int32_t
  have : (2147483648 + n) % 4294967296 = 2147483648 + n := Nat.mod_eq_of_lt (by omega)
  rw [this]
  push_cast
  omega

theorem int32_t_le (n : Nat) : int32_t n ≤ (n : Int) := by
  unfold int32_t
  have := Nat.mod_le (2147483648 + n) 4294967296
  omega

theorem symbols_below_length {key : List Char} (h : key.length < 2147483648) :
    symbols_below key (int32_t key.length) = key := by
  unfold symbols_below
  rw [int32_t_of_lt h]
  simp

theorem symbols_below_getLast {key : List Char} {c : Char} (h : key.length < 2147483648)
    (hc : key.getLast? = some c) :
    symbols_below key (int32_t key.length - 1) ++ [c] = key := by
  unfold symbols_below
  rw [int32_t_of_lt h]
  have h1 : ((key.length : Int) - 1).toNat = key.length - 1 := by omega
  rw [h1, ← List.dropLast_eq_take]
  exact List.dropLast_append_getLast? c hc

theorem Put_path32_eq_Put_path (cur : TrieNode Ty El) (v : Sigma El) {key : List Char}
    (h : key.length < 2147483648) : Put_path32 cur v key = Put_path cur v key := by
  unfold Put_path32
  have hne : ¬ int32_t key.length = -2147483648 := by
    rw [int32_t_of_lt h]
    omega
  simp only [hne, if_false]
  cases hl : key.getLast? with
  | none =>
    have : key = [] := List.getLast?_eq_none_iff.1 hl
    subst this
    rfl
  | some c => simp only [symbols_below_getLast h hl]

/-- On a key shorter than `2^31` symbols the `int32_t` length is the length: `Put32` is `Put`. -/
theorem Put32_eq_Put (t : Trie Ty El) (v : Sigma El) {key : List Char}
    (h : key.length < 2147483648) : t.Put32 key v = t.Put key v := by
  unfold Trie.Put32 Trie.Put
  simp only [Put_path32_eq_Put_path _ v h]

/-- On a key shorter than `2^31` symbols the `int32_t` length is the length: `Remove32` is
`Remove`. -/
theorem Remove32_eq_Remove (t : Trie Ty El) {key : List Char}
    (h : key.length < 2147483648) : t.Remove32 key = t.Remove key := by
  unfold Trie.Remove32 Trie.Remove
  simp only [symbols_below_length h]

theorem length_longKey : longKey.length = 2147483649 := by
  unfold longKey
  exact List.length_replicate _ _

theorem int32_t_longKey : int32_t longKey.length = -2147483647 := by
  rw [length_longKey]
  unfold int32_t
  norm_num

theorem longKey_eq : longKey = 'a' :: 'a' :: List.replicate 2147483647 'a' := by
  unfold longKey
  rfl

theorem isEmpty_longKey : longKey.isEmpty = false := by
  rw [longKey_eq]
  rfl

theorem longKey_ne_nil : longKey ≠ [] := by
  rw [longKey_eq]
  exact List.cons_ne_nil _ _

theorem getLast?_longKey : longKey.getLast? = some 'a' := by
  unfold longKey
  rw [List.getLast?_replicate, if_neg (by omega)]

theorem symbols_below_longKey :
    symbols_below longKey (int32_t longKey.length) = [] := by
  rw [int32_t_longKey]
  rfl

theorem symbols_below_longKey_pred :
    symbols_below longKey (int32_t longKey.length - 1) = [] := by
  rw [int32_t_longKey]
  rfl

theorem walk_valueRoot_longKey : walk valueRoot longKey = none := by
  rw [longKey_eq]
  rfl

theorem Put_path32_last_only (cur : TrieNode Ty El) (v : Sigma El) {k : List Char} {c : Char}
    (h2 : symbols_below k (int32_t k.length - 1) = []) (h3 : k.getLast? = some c)
    (h4 : ¬ int32_t k.length = -2147483648) :
    Put_path32 cur v k = Put_path cur v [c] := by
  unfold Put_path32
  simp only [h4, if_false, h3, h2, List.nil_append]

theorem Put_path_fresh_single (v : Sigma El) (c : Char) :
    Put_path (TrieNode.mk [] none : TrieNode Ty El) v [c]
      = .ok (.mk [(c, .mk [] (some v))] none) := rfl

theorem Put32_of_root_none (t : Trie Ty El) (v : Sigma El) {k : List Char}
    {r : TrieNode Ty El} (hr : t.root_ = none) (h1 : k.isEmpty = false)
    (hp : Put_path32 (TrieNode.mk [] none) v k = .ok r) : t.Put32 k v = .ok ⟨some r⟩ := by
  unfold Trie.Put32
  rw [hr]
  simp only [h1, Bool.false_eq_true, if_false, hp]

/-- On the key of `2^31 + 1` symbols `len - 1` is negative: the loop of `Put32` runs no turn, and
the value node is hung under `key.back()` below the root. -/
theorem Put32_longKey_empty_trie (v : Sigma El) :
    (Trie.empty : Trie Ty El).Put32 longKey v
      = .ok ⟨some (.mk [('a', .mk [] (some v))] none)⟩ := by
  have h4 : ¬ int32_t longKey.length = -2147483648 := by
    rw [int32_t_longKey]
    omega
  exact Put32_of_root_none Trie.empty v rfl isEmpty_longKey
    ((Put_path32_last_only _ v symbols_below_longKey_pred getLast?_longKey h4).trans
      (Put_path_fresh_single v 'a'))

theorem Remove32_of_empty_walk (t : Trie Ty El) {root : TrieNode Ty El} {k : List Char}
    (hr : t.root_ = some root) (h1 : k.isEmpty = false)
    (h2 : symbols_below k (int32_t k.length) = []) (hv : root.is_value_node_ = true)
    (hc : root.children_.isEmpty = false) :
    t.Remove32 k = .ok ⟨some (.mk root.children_ none)⟩ := by
  unfold Trie.Remove32
  rw [hr]
  simp only [h1, Bool.false_eq_true, if_false, h2, walk, hv, Bool.not_true, Remove_Function, hc]

/-- On the key of `2^31 + 1` symbols `len` is negative: `Remove32` walks nothing, takes the root
for the node of the key and, the root being value-bearing, returns it without its value. -/
theorem Remove32_longKey_valueRoot :
    (Trie.mk (some valueRoot)).Remove32 longKey = .ok ⟨some (.mk valueRoot.children_ none)⟩ :=
  Remove32_of_empty_walk _ rfl isEmpty_longKey symbols_below_longKey rfl rfl

/-! ## The claims on `Remove` and `Put` with the `int32_t` length -/

/-- C4, for keys shorter than `2^31` symbols: for keys `key2 ≠ key`, `Remove(key)` returns a trie
on which `Get<U>(key2)` is what it was for every value type `U`; and every position on the way to
a value stored under another key than `key` (the position of that value included) is still
reachable, so pruning drops no node that carries a value or leads to one. -/
theorem Remove32_Get_other [DecidableEq Ty] (t : Trie Ty El) (key key2 : List Char)
    (hlen : key.length < 2147483648) (hk : key2 ≠ key) :
    ∃ t2, t.Remove32 key = .ok t2 ∧ (∀ U, t2.Get U key2 = t.Get U key2) ∧
      ∀ (p q : List Char) (n : TrieNode Ty El), t.node (p ++ q) = some n →
        n.is_value_node_ = true → p ++ q ≠ key → ∃ n2, t2.node p = some n2 := by
  rw [Remove32_eq_Remove t hlen]
  exact Remove_Get_other t key key2 hk

/-- C5, with the bound on the key: when the trie is empty, or the key is shorter than `2^31`
symbols and its path is broken or the node it leads to is not value-bearing, `Remove(key)`
returns the receiver itself. -/
theorem Remove32_absent_key_noop (t : Trie Ty El) (key : List Char)
    (h : t.root_ = none ∨ (key.length < 2147483648 ∧ (t.node key = none ∨
      ∃ n, t.node key = some n ∧ n.is_value_node_ = false))) :
    t.Remove32 key = .ok t := by
  rcases h with h | ⟨hlen, h⟩
  · unfold Trie.Remove32
    rw [h]
  · rw [Remove32_eq_Remove t hlen]
    exact Remove_absent_key_noop t key (Or.inr h)

/-- C14, for keys shorter than `2^31` symbols: for a non-empty key, `Put` into the empty trie
returns a trie of `|key| + 1` nodes; the node reached by the first `i` symbols, for `i < |key|`,
is not value-bearing and has exactly one child, under the next symbol, which is the node reached
by the first `i + 1` symbols; the node reached by the key is value-bearing, holds the value and
has no children. -/
theorem Put32_empty_trie_chain (key : List Char) (v : Sigma El) (hk : key ≠ [])
    (hlen : key.length < 2147483648) :
    ∃ t : Trie Ty El, (Trie.empty : Trie Ty El).Put32 key v = .ok t ∧
      t.count = key.length + 1 ∧
      (∀ i (hi : i < key.length), ∃ n child, t.node (key.take i) = some n ∧
        n.is_value_node_ = false ∧ n.children_ = [(key[i], child)] ∧
        t.node (key.take (i + 1)) = some child) ∧
      ∃ n, t.node key = some n ∧ n.value_ = some v ∧ n.children_ = [] := by
  rw [Put32_eq_Put _ v hlen]
  exact Put_empty_trie_chain key v hk

theorem Remove32_Get_other_witness :
    (['a'].length < 2147483648 ∧ ['a', 'b'] ≠ ['a']) ∧
      ∃ t2, exampleTrie.Remove32 ['a'] = .ok t2 ∧
        (∀ U, t2.Get U ['a', 'b'] = exampleTrie.Get U ['a', 'b']) ∧
        ∀ (p q : List Char) (n : TrieNode ValueType ValueType.Val),
          exampleTrie.node (p ++ q) = some n → n.is_value_node_ = true → p ++ q ≠ ['a'] →
          ∃ n2, t2.node p = some n2 :=
  ⟨⟨by decide, by decide⟩,
    Remove32_Get_other exampleTrie ['a'] ['a', 'b'] (by decide) (by decide)⟩

theorem Remove32_absent_key_noop_witness :
    (['b'].length < 2147483648 ∧ exampleTrie.node ['b'] = none) ∧
      exampleTrie.Remove32 ['b'] = .ok exampleTrie :=
  ⟨⟨by decide, rfl⟩,
    Remove32_absent_key_noop exampleTrie ['b'] (Or.inr ⟨by decide, Or.inl rfl⟩)⟩

theorem Put32_empty_trie_chain_witness :
    (['a', 'b'] ≠ [] ∧ ['a', 'b'].length < 2147483648) ∧
      ∃ t : Trie ValueType ValueType.Val,
        (Trie.empty : Trie ValueType ValueType.Val).Put32 ['a', 'b'] two = .ok t ∧
        t.count = ['a', 'b'].length + 1 ∧
        (∀ i (hi : i < ['a', 'b'].length), ∃ n child, t.node (['a', 'b'].take i) = some n ∧
          n.is_value_node_ = false ∧ n.children_ = [(['a', 'b'][i], child)] ∧
          t.node (['a', 'b'].take (i + 1)) = some child) ∧
        ∃ n, t.node ['a', 'b'] = some n ∧ n.value_ = some two ∧ n.children_ = [] :=
  ⟨⟨by decide, by decide⟩, Put32_empty_trie_chain ['a', 'b'] two (by decide) (by decide)⟩

/-- C4 as stated fails at a key of `2^31 + 1` symbols: `len` is negative, `Remove` of that key
walks nothing and strips the value of the value-bearing root, so `Get<uint32_t>("")`, present
before, is absent afterwards, though the empty key is another key. -/
theorem Remove32_longKey_changes_empty_key :
    longKey.length = 2147483649 ∧ ([] : List Char) ≠ longKey ∧
      (Trie.mk (some valueRoot)).Get .uint32_t [] = some (1 : Nat) ∧
      ∃ t2, (Trie.mk (some valueRoot)).Remove32 longKey = .ok t2 ∧
        t2.Get .uint32_t [] = none ∧
        t2.Get .uint32_t [] ≠ (Trie.mk (some valueRoot)).Get .uint32_t [] :=
  ⟨length_longKey, fun h => longKey_ne_nil h.symm, rfl, _, Remove32_longKey_valueRoot, rfl,
    fun h => nomatch h⟩

/-- C5 as stated fails at a key of `2^31 + 1` symbols: the path of the key is broken in the trie
of the value-bearing root, and `Remove` of that key returns the root without its value, not the
receiver. -/
theorem Remove32_longKey_absent_not_noop :
    longKey.length = 2147483649 ∧ (Trie.mk (some valueRoot)).node longKey = none ∧
      ∃ t2, (Trie.mk (some valueRoot)).Remove32 longKey = .ok t2 ∧
        t2 ≠ Trie.mk (some valueRoot) :=
  ⟨length_longKey, walk_valueRoot_longKey, _, Remove32_longKey_valueRoot,
    fun h => nomatch h⟩

/-- C14 as stated fails at a key of `2^31 + 1` symbols: `len - 1` is negative, the loop of `Put`
runs no turn, and `Put` into the empty trie returns a trie of two nodes, the root and the value
node under `key.back()`, not of `|key| + 1` nodes. -/
theorem Put32_longKey_two_nodes :
    longKey ≠ [] ∧ longKey.length = 2147483649 ∧
      ∃ t, (Trie.empty : Trie ValueType ValueType.Val).Put32 longKey two = .ok t ∧
        t.count = 2 ∧ t.count ≠ longKey.length + 1 := by
  refine ⟨longKey_ne_nil, length_longKey, _, Put32_longKey_empty_trie two, rfl, ?_⟩
  rw [length_longKey]
  have hc : (Trie.mk (some (.mk [('a', .mk [] (some two))] none)) :
      Trie ValueType ValueType.Val).count = 2 := rfl
  rw [hc]
  omega

end bustub
